import Mathlib

/-!
# go-airplay, package `alsa`: the PCM writer of `alsa_writer.go`

A shallow embedding of `NewAlsaWriter`, `alsaWriter.Write`, `alsaWriter.thread` and
`alsaWriter.write`, and the properties of the buffer pool, of the parameter negotiation and of
the device-write loop.

The goroutines (the callers of `Write`, and the writer task `thread`) are modelled as an
interleaving of steps on the fields of `alsaWriter`.  A call of `Write` takes two steps: the
receive from `a.done` with the filling of the slot (lines 138 to 146), and the send to
`a.work` (lines 147 to 149); the writer task takes one step for each queue operation, each
pass of the loop test, each pass of the pre-roll wait and each ioctl.  The sound device is a
parameter (`Device`), so every statement holds for every device, or for the devices it names.
`Close` is not modelled: the runs are those between construction and `Close`.

Go's `int` is taken at 64 bits: byte offsets and frame counts stay far below `2^63` for every
buffer that fits in memory, so they are natural numbers here.  The `uint32` arithmetic of
`Config` and the unsigned arithmetic on the negotiated buffer size wrap, and are modelled with
their modulus.
-/

namespace alsa

/-! ## Constants and plain data -/

abbrev Byte := UInt8

abbrev Errno := Nat

def period_size : Nat := 512

def period_count : Nat := 8

def buffers : Nat := 8

def max : Nat := 44100 * 2 * 2

/-- Go's `uint32` arithmetic: the result modulo `2^32`. -/
def u32 (n : Nat) : Nat := n % 2 ^ 32

structure Config where
  Channels : Nat
  Freq : Nat
deriving DecidableEq, Repr

/-- The field `bytesPerFrame: int(c.Channels * 2)` (line 35); the product is a `uint32`. -/
def bytesPerFrameOf (c : Config) : Nat := u32 (c.Channels * 2)

/-! ## Byte slices -/

/-- A Go `[]byte`: the backing array and the length; the capacity is the array's length. -/
structure Slice where
  arr : List Byte
  len : Nat
deriving DecidableEq, Repr

/-- The capacity `cap(s)`. -/
def Slice.cap (s : Slice) : Nat := s.arr.length

/-- The bytes a reader of the slice sees: `s[0:len(s)]`. -/
def Slice.bytes (s : Slice) : List Byte := s.arr.take s.len

/-- The zero value of a slice (an element of `make([][]byte, buffers)`). -/
def nilSlice : Slice := ⟨[], 0⟩

/-- The slice `make([]byte, l)`. -/
def make (l : Nat) : Slice := ⟨List.replicate l 0, l⟩

/-- The builtin `copy(dst, src)`: the first `min(len(dst), len(src))` bytes are overwritten. -/
def copy (dst : Slice) (src : List Byte) : Slice :=
  { dst with arr := src.take (min dst.len src.length) ++ dst.arr.drop (min dst.len src.length) }

/-- Lines 138 and 140 to 146 of `Write`, on the pooled slot `a.buf[i]`. -/
def fill (slot : Slice) (data : List Byte) : Slice :=
  let l := data.length
  let slot1 :=
    if slot.len < l then
      let slot0 := if slot.cap < l then make l else slot
      { slot0 with len := l }
    else slot
  copy slot1 data

/-! ## The sound device -/

/-- The answer to `SNDRV_PCM_IOCTL_WRITEI_FRAMES`: no error and `x.result` frames
transferred (a count, so not negative), or an error. -/
inductive Res
  | ok (frames : Nat)
  | fail (e : Errno)
deriving DecidableEq, Repr

/-- What the driver answers to the three ioctls of `write`, with a state of its own.
`writei st buf off frames` is the transfer of `frames` frames from `&buf[off]`. -/
structure Device (σ : Type) where
  delay : σ → σ
  prepare : σ → Option Errno × σ
  writei : σ → List Byte → Nat → Nat → Res × σ

/-- The device calls and queue operations a run performs, in order. -/
inductive Event
  | queued (i : Nat) (data : List Byte)
  | freed (i : Nat)
  | delay
  | prepare (err : Option Errno)
  | writei (off frames : Nat) (res : Res)
deriving DecidableEq, Repr

/-! ## The state of the writer and of its goroutines -/

/-- The arguments and locals of one call `a.write(buf)`: the pool index the buffer came from,
the slice passed, and the offset `i`. -/
structure Frame where
  idx : Nat
  buf : List Byte
  i : Nat
deriving DecidableEq, Repr

/-- The places of `write` at which the writer task can stand: the loop test (line 95), the
pre-roll wait (line 99), the prepare (line 103) and the transfer (lines 109 to 116). -/
inductive Loc
  | head
  | wait
  | prep
  | xfer
deriving DecidableEq, Repr

/-- Where the writer task stands: at the receive of line 130, inside `write`, after `write`
has returned `(f.i, err)` and before the send of line 132. -/
inductive Pc
  | idle
  | loop (l : Loc) (f : Frame)
  | ret (f : Frame) (err : Option Errno)
deriving DecidableEq, Repr

/-- The fields of `alsaWriter` that `Write`, `thread` and `write` use, the control state of the
writer task (`pc`), the calls of `Write` that have received their index and not yet sent it
(`calls`: the locals `i` and `buf`), the device, and the history of the run (`log`). -/
structure alsaWriter (σ : Type) where
  work : List Nat
  done : List Nat
  buf : List Slice
  fd : Nat
  running : Bool
  bytesPerFrame : Nat
  pc : Pc
  calls : List (Nat × List Byte)
  dev : σ
  log : List Event

/-- The writer as lines 35 and 78 to 85 of `NewAlsaWriter` leave it. -/
def construct {σ : Type} (c : Config) (f : Nat) (dev : σ) : alsaWriter σ :=
  { work := []
    done := List.range buffers
    buf := List.replicate buffers nilSlice
    fd := f
    running := false
    bytesPerFrame := bytesPerFrameOf c
    pc := Pc.idle
    calls := []
    dev := dev
    log := [] }

/-! ## `Write` -/

/-- Lines 138 to 146 of `Write(data)`: receive an index from `a.done` (the call waits while the
queue is empty), then size and fill the slot.  There is no next state (`none`) while the call
waits, and none when `a.buf[i]` is out of range: the panic ends the process. -/
def Write_begin {σ : Type} (s : alsaWriter σ) (data : List Byte) : Option (alsaWriter σ) :=
  match s.done with
  | [] => none
  | i :: rest =>
    if i < s.buf.length then
      some { s with
        done := rest
        buf := s.buf.set i (fill (s.buf.getD i nilSlice) data)
        calls := s.calls ++ [(i, data)] }
    else none

/-- The calls in progress without the first one that holds `c`. -/
def dropCall (c : Nat × List Byte) : List (Nat × List Byte) → List (Nat × List Byte)
  | [] => []
  | x :: xs => if x = c then xs else x :: dropCall c xs

/-- Lines 147 to 149 of the call of `Write` that holds index `i` and was passed `data`: send
the index to `a.work` (the send waits while the queue is full) and return. -/
def Write_end {σ : Type} (s : alsaWriter σ) (i : Nat) (data : List Byte) :
    Option (alsaWriter σ) :=
  if (i, data) ∈ s.calls ∧ s.work.length < s.buf.length then
    some { s with
      calls := dropCall (i, data) s.calls
      work := s.work ++ [i]
      log := s.log ++ [Event.queued i data] }
  else none

/-! ## `thread` and `write` -/

/-- The frame count of line 115: `left / a.bytesPerFrame`, `left` being what lines 109 to 112
compute. -/
def framesAt (bpf : Nat) (f : Frame) : Nat := min (f.buf.length - f.i) max / bpf

/-- One step of the writer task.  There is no next state (`none`) while the task is blocked on
a queue, and none when the step panics (an index out of range at line 131, the division by a
zero `bytesPerFrame` at line 115): the panic ends the process.  A pass of the pre-roll wait
that finds fewer than `buffers/2` indices queued sleeps and leaves the state as it is. -/
def thread_step {σ : Type} (D : Device σ) (s : alsaWriter σ) : Option (alsaWriter σ) :=
  match s.pc with
  | Pc.idle =>
    match s.work with
    | [] => none
    | i :: rest =>
      if i < s.buf.length then
        some { s with work := rest, pc := Pc.loop Loc.head ⟨i, (s.buf.getD i nilSlice).bytes, 0⟩ }
      else none
  | Pc.loop Loc.head f =>
    if f.i < f.buf.length then
      some { s with
        dev := D.delay s.dev
        log := s.log ++ [Event.delay]
        pc := if s.running then Pc.loop Loc.xfer f else Pc.loop Loc.wait f }
    else some { s with pc := Pc.ret f none }
  | Pc.loop Loc.wait f =>
    if s.work.length < buffers / 2 then some s
    else some { s with pc := Pc.loop Loc.prep f }
  | Pc.loop Loc.prep f =>
    match D.prepare s.dev with
    | (some e, d) =>
      some { s with dev := d, log := s.log ++ [Event.prepare (some e)], pc := Pc.ret f (some e) }
    | (none, d) =>
      some { s with
        dev := d
        log := s.log ++ [Event.prepare none]
        running := true
        pc := Pc.loop Loc.xfer f }
  | Pc.loop Loc.xfer f =>
    if s.bytesPerFrame = 0 then none
    else
      match D.writei s.dev f.buf f.i (framesAt s.bytesPerFrame f) with
      | (Res.ok r, d) =>
        some { s with
          dev := d
          log := s.log ++ [Event.writei f.i (framesAt s.bytesPerFrame f) (Res.ok r)]
          pc := Pc.loop Loc.head { f with i := f.i + r * s.bytesPerFrame } }
      | (Res.fail e, d) =>
        some { s with
          dev := d
          log := s.log ++ [Event.writei f.i (framesAt s.bytesPerFrame f) (Res.fail e)]
          running := false
          pc := Pc.loop Loc.head f }
  | Pc.ret f _ =>
    if s.done.length < s.buf.length then
      some { s with done := s.done ++ [f.idx], log := s.log ++ [Event.freed f.idx], pc := Pc.idle }
    else none

/-! ## Runs -/

/-- The steps of a run: a caller starts a `Write`, a caller finishes one, the writer task
moves. -/
inductive Act
  | writeBegin (data : List Byte)
  | writeEnd (i : Nat) (data : List Byte)
  | thread
deriving DecidableEq, Repr

/-- One step; `none` when the goroutine that would take it is blocked or panics. -/
def step {σ : Type} (D : Device σ) (s : alsaWriter σ) : Act → Option (alsaWriter σ)
  | Act.writeBegin data => Write_begin s data
  | Act.writeEnd i data => Write_end s i data
  | Act.thread => thread_step D s

/-- A run: the steps taken one after the other. -/
def exec {σ : Type} (D : Device σ) (s : alsaWriter σ) : List Act → Option (alsaWriter σ)
  | [] => some s
  | a :: as => (step D s a).bind fun s1 => exec D s1 as

/-- The writer task alone, taking `n` steps. -/
def threadRun {σ : Type} (D : Device σ) : Nat → alsaWriter σ → Option (alsaWriter σ)
  | 0, s => some s
  | n + 1, s => (thread_step D s).bind fun s1 => threadRun D n s1

/-! ## `NewAlsaWriter` -/

/-- The declarations of package `alsa` that `alsa_writer.go` uses and other files of the
package make: the width in bits of the field `max` of the interval structure, the width of
`sndrv_pcm_uframes_t`, and the constant `SNDRV_PCM_TSTAMP_NONE`.  They are parameters. -/
structure Abi where
  intervalBits : Nat
  uframesBits : Nat
  SNDRV_PCM_TSTAMP_NONE : Nat

/-- An integer as an unsigned machine integer of `w` bits holds it. -/
def wrap (w : Nat) (z : Int) : Nat := (z % (2 : Int) ^ w).toNat

structure sndrv_pcm_sw_params where
  tstamp_mode : Nat
  period_step : Nat
  avail_min : Nat
  start_threshold : Nat
  stop_threshold : Nat
  xfer_align : Nat
  silence_size : Nat
  silence_threshold : Nat
deriving DecidableEq, Repr

/-- The hardware parameters `NewAlsaWriter` names. -/
inductive HwParam
  | ACCESS
  | FORMAT
  | SUBFORMAT
  | PERIOD_SIZE
  | SAMPLE_BITS
  | FRAME_BITS
  | CHANNELS
  | PERIODS
  | RATE
deriving DecidableEq, Repr

/-- The values lines 38 to 46 pass: two constants of the package, or a number. -/
inductive HwVal
  | RW_INTERLEAVED
  | S16_LE
  | num (n : Nat)
deriving DecidableEq, Repr

/-- One setter call on `par` (lines 38 to 46). -/
inductive HwSet
  | SetMask (p : HwParam) (v : HwVal)
  | SetMin (p : HwParam) (v : HwVal)
  | SetInt (p : HwParam) (v : HwVal)
deriving DecidableEq, Repr

/-- The hardware-parameter request of lines 36 to 46. -/
def hwRequest (c : Config) : List HwSet :=
  [ HwSet.SetMask HwParam.ACCESS HwVal.RW_INTERLEAVED,
    HwSet.SetMask HwParam.FORMAT HwVal.S16_LE,
    HwSet.SetMask HwParam.SUBFORMAT (HwVal.num 0),
    HwSet.SetMin HwParam.PERIOD_SIZE (HwVal.num period_size),
    HwSet.SetInt HwParam.SAMPLE_BITS (HwVal.num 16),
    HwSet.SetInt HwParam.FRAME_BITS (HwVal.num (u32 (16 * c.Channels))),
    HwSet.SetInt HwParam.CHANNELS (HwVal.num c.Channels),
    HwSet.SetInt HwParam.PERIODS (HwVal.num period_count),
    HwSet.SetInt HwParam.RATE (HwVal.num c.Freq) ]

/-- The software-parameter request of lines 60 to 69, `B` being
`par.interval(SNDRV_PCM_HW_PARAM_BUFFER_SIZE).max` as the accepted hardware parameters hold
it.  The subtraction and the product are computed in the interval field's unsigned type and
then converted to `sndrv_pcm_uframes_t`. -/
def sparamsOf (abi : Abi) (B : Nat) : sndrv_pcm_sw_params :=
  { tstamp_mode := abi.SNDRV_PCM_TSTAMP_NONE
    period_step := 0
    avail_min := 1
    start_threshold := wrap abi.uframesBits (wrap abi.intervalBits ((B : Int) - 4))
    stop_threshold := wrap abi.uframesBits (wrap abi.intervalBits ((B : Int) * 2))
    xfer_align := period_size / 2
    silence_size := 0
    silence_threshold := 0 }

/-- What the operating system answers during construction: to the open a descriptor or an
error, to the hardware-parameter ioctl an error or the accepted parameters (of which the
maximum buffer size in frames is kept), to the software-parameter ioctl an error or nothing. -/
structure Kernel where
  sysOpen : Except Errno Nat
  hw_params : List HwSet → Except Errno Nat
  sw_params : sndrv_pcm_sw_params → Option Errno

/-- The system calls and the goroutine and queue creations of `NewAlsaWriter`, in order. -/
inductive Call
  | sysOpen
  | hw_params (fd : Nat) (par : List HwSet)
  | sw_params (fd : Nat) (sp : sndrv_pcm_sw_params)
  | close (fd : Nat)
  | make_chan (cap : Nat)
  | go_thread
deriving DecidableEq, Repr

/-- What `NewAlsaWriter` returns, and the calls it made. -/
structure Built (σ : Type) where
  writer : Option (alsaWriter σ)
  err : Option Errno
  calls : List Call

def NewAlsaWriter {σ : Type} (abi : Abi) (k : Kernel) (dev : σ) (c : Config) : Built σ :=
  let par := hwRequest c
  match k.sysOpen with
  | Except.error e => ⟨none, some e, [Call.sysOpen]⟩
  | Except.ok f =>
    match k.hw_params par with
    | Except.error e => ⟨none, some e, [Call.sysOpen, Call.hw_params f par, Call.close f]⟩
    | Except.ok B =>
      let sparams := sparamsOf abi B
      match k.sw_params sparams with
      | some e =>
        ⟨none, some e,
          [Call.sysOpen, Call.hw_params f par, Call.sw_params f sparams, Call.close f]⟩
      | none =>
        ⟨some (construct c f dev), none,
          [Call.sysOpen, Call.hw_params f par, Call.sw_params f sparams,
            Call.make_chan buffers, Call.make_chan buffers, Call.go_thread]⟩

/-- The software-parameter request a construction submitted, if it submitted one. -/
def swRequest : List Call → Option sndrv_pcm_sw_params
  | [] => none
  | Call.sw_params _ sp :: _ => some sp
  | _ :: cs => swRequest cs

/-- How often a construction closed a descriptor. -/
def closes (cs : List Call) : Nat :=
  cs.countP fun c => match c with
    | Call.close _ => true
    | _ => false

/-- Whether a construction issued the hardware-parameter ioctl. -/
def triedHw (cs : List Call) : Bool :=
  cs.any fun c => match c with
    | Call.hw_params _ _ => true
    | _ => false

/-- Whether a construction issued the software-parameter ioctl. -/
def triedSw (cs : List Call) : Bool :=
  cs.any fun c => match c with
    | Call.sw_params _ _ => true
    | _ => false

/-- How many queues a construction made. -/
def queuesMade (cs : List Call) : Nat :=
  cs.countP fun c => match c with
    | Call.make_chan _ => true
    | _ => false

/-- The 32-bit interval fields and 64-bit frame counts of the Linux sound interface on a
64-bit target. -/
def abi64 : Abi := ⟨32, 64, 0⟩

/-- A kernel that accepts everything and negotiates a buffer of `B` frames on descriptor 3. -/
def accepting (B : Nat) : Kernel := ⟨Except.ok 3, fun _ => Except.ok B, fun _ => none⟩

/-! ## A recording device -/

/-- A device on which every prepare succeeds and every transfer succeeds and reports exactly
the frame count requested; its state is the bytes it has received, in order.  `bpf` is the
frame size the device was configured with. -/
def mock (bpf : Nat) : Device (List Byte) where
  delay st := st
  prepare st := (none, st)
  writei st buf off frames := (Res.ok frames, st ++ (buf.drop off).take (frames * bpf))

/-- The two steps of one uncontended call `Write(data)` that is handed index `i`. -/
def W (i : Nat) (data : List Byte) : List Act := [Act.writeBegin data, Act.writeEnd i data]

/-- The writer task taking `n` steps in a row. -/
def T (n : Nat) : List Act := List.replicate n Act.thread

/-- A mono configuration: two bytes a frame. -/
def mono : Config := ⟨1, 44100⟩

/-- A stereo configuration: four bytes a frame. -/
def stereo : Config := ⟨2, 44100⟩

/-- Nine calls of `Write` on a mono writer, the ninth shorter than the first, and the writer
task running each buffer to its end: the ninth call is handed slot 0 again. -/
def nineWrites : List Act :=
  W 0 [1, 2, 3, 4] ++ W 1 [1, 2, 3, 4] ++ W 2 [1, 2, 3, 4] ++ W 3 [1, 2, 3, 4] ++
    W 4 [1, 2, 3, 4] ++ T 7 ++
    W 5 [1, 2, 3, 4] ++ W 6 [1, 2, 3, 4] ++ W 7 [1, 2, 3, 4] ++ W 0 [9, 9] ++ T 40

/-! ## Where the pool indices are -/

/-- The index the writer task holds: the one it received and has not yet sent back. -/
def inflight : Pc → List Nat
  | Pc.idle => []
  | Pc.loop _ f => [f.idx]
  | Pc.ret f _ => [f.idx]

/-- The indices held by calls of `Write` that have received one and not yet sent it. -/
def held {σ : Type} (s : alsaWriter σ) : List Nat := s.calls.map Prod.fst

/-- Every index below `buffers` is at exactly one place among the free queue, the ready
queue, the writer task and the calls of `Write` in progress, no other number is anywhere, and
the slots are `buffers` many. -/
def PoolInv {σ : Type} (s : alsaWriter σ) : Prop :=
  s.buf.length = buffers ∧
  s.done.length + s.work.length + (inflight s.pc).length + s.calls.length = buffers ∧
  ∀ x, s.done.count x + s.work.count x + (inflight s.pc).count x + (held s).count x =
    if x < buffers then 1 else 0

/-- How many indices calls of `Write` have sent to the ready queue. -/
def queuedCount (log : List Event) : Nat :=
  log.countP fun e => match e with
    | Event.queued _ _ => true
    | _ => false

/-- How many indices the writer task has sent back to the free queue. -/
def freedCount (log : List Event) : Nat :=
  log.countP fun e => match e with
    | Event.freed _ => true
    | _ => false

/-! ## The steps, one case each -/

/-- The relation `step D s a = some s1`, split into the cases of `Write_begin`, `Write_end`
and `thread_step`. -/
inductive Step {σ : Type} (D : Device σ) (s : alsaWriter σ) : Act → alsaWriter σ → Prop
  | writeBegin (data : List Byte) (i : Nat) (rest : List Nat)
      (hd : s.done = i :: rest) (hi : i < s.buf.length) :
      Step D s (Act.writeBegin data)
        { s with
          done := rest
          buf := s.buf.set i (fill (s.buf.getD i nilSlice) data)
          calls := s.calls ++ [(i, data)] }
  | writeEnd (i : Nat) (data : List Byte)
      (hm : (i, data) ∈ s.calls) (hw : s.work.length < s.buf.length) :
      Step D s (Act.writeEnd i data)
        { s with
          calls := dropCall (i, data) s.calls
          work := s.work ++ [i]
          log := s.log ++ [Event.queued i data] }
  | recv (i : Nat) (rest : List Nat)
      (hpc : s.pc = Pc.idle) (hw : s.work = i :: rest) (hi : i < s.buf.length) :
      Step D s Act.thread
        { s with work := rest, pc := Pc.loop Loc.head ⟨i, (s.buf.getD i nilSlice).bytes, 0⟩ }
  | head (f : Frame) (hpc : s.pc = Pc.loop Loc.head f) (hlt : f.i < f.buf.length) :
      Step D s Act.thread
        { s with
          dev := D.delay s.dev
          log := s.log ++ [Event.delay]
          pc := if s.running then Pc.loop Loc.xfer f else Pc.loop Loc.wait f }
  | leave (f : Frame) (hpc : s.pc = Pc.loop Loc.head f) (hge : ¬ f.i < f.buf.length) :
      Step D s Act.thread { s with pc := Pc.ret f none }
  | sleep (f : Frame) (hpc : s.pc = Pc.loop Loc.wait f) (hlt : s.work.length < buffers / 2) :
      Step D s Act.thread s
  | ready (f : Frame) (hpc : s.pc = Pc.loop Loc.wait f) (hge : ¬ s.work.length < buffers / 2) :
      Step D s Act.thread { s with pc := Pc.loop Loc.prep f }
  | prepFail (f : Frame) (e : Errno) (d : σ)
      (hpc : s.pc = Pc.loop Loc.prep f) (hD : D.prepare s.dev = (some e, d)) :
      Step D s Act.thread
        { s with dev := d, log := s.log ++ [Event.prepare (some e)], pc := Pc.ret f (some e) }
  | prepOk (f : Frame) (d : σ)
      (hpc : s.pc = Pc.loop Loc.prep f) (hD : D.prepare s.dev = (none, d)) :
      Step D s Act.thread
        { s with
          dev := d
          log := s.log ++ [Event.prepare none]
          running := true
          pc := Pc.loop Loc.xfer f }
  | xferOk (f : Frame) (r : Nat) (d : σ)
      (hpc : s.pc = Pc.loop Loc.xfer f) (hb : s.bytesPerFrame ≠ 0)
      (hD : D.writei s.dev f.buf f.i (framesAt s.bytesPerFrame f) = (Res.ok r, d)) :
      Step D s Act.thread
        { s with
          dev := d
          log := s.log ++ [Event.writei f.i (framesAt s.bytesPerFrame f) (Res.ok r)]
          pc := Pc.loop Loc.head { f with i := f.i + r * s.bytesPerFrame } }
  | xferFail (f : Frame) (e : Errno) (d : σ)
      (hpc : s.pc = Pc.loop Loc.xfer f) (hb : s.bytesPerFrame ≠ 0)
      (hD : D.writei s.dev f.buf f.i (framesAt s.bytesPerFrame f) = (Res.fail e, d)) :
      Step D s Act.thread
        { s with
          dev := d
          log := s.log ++ [Event.writei f.i (framesAt s.bytesPerFrame f) (Res.fail e)]
          running := false
          pc := Pc.loop Loc.head f }
  | give (f : Frame) (err : Option Errno)
      (hpc : s.pc = Pc.ret f err) (hl : s.done.length < s.buf.length) :
      Step D s Act.thread
        { s with done := s.done ++ [f.idx], log := s.log ++ [Event.freed f.idx], pc := Pc.idle }

/-! ## Sample runs -/

/-- Eight uncontended calls of `Write` on a fresh writer, one for each slot. -/
def eightWrites (data : List Byte) : List Act :=
  W 0 data ++ W 1 data ++ W 2 data ++ W 3 data ++ W 4 data ++ W 5 data ++ W 6 data ++ W 7 data

/-! ## Invariants of the runs -/

/-- The calls of `Write` started and the indices sent back balance the free queue. -/
def CountInv {σ : Type} (s : alsaWriter σ) : Prop :=
  s.done.length + s.calls.length + queuedCount s.log = buffers + freedCount s.log

/-- The pre-roll: the writer task waits and prepares only while not running, it stands before
the prepare only with `buffers/2` indices queued, and every prepare of the history came after
`buffers/2` sends to the ready queue. -/
def PreInv {σ : Type} (s : alsaWriter σ) : Prop :=
  (∀ f, s.pc = Pc.loop Loc.wait f → s.running = false) ∧
  (∀ f, s.pc = Pc.loop Loc.prep f → s.running = false ∧ buffers / 2 ≤ s.work.length) ∧
  s.work.length ≤ queuedCount s.log ∧
  ∀ pre r post, s.log = pre ++ Event.prepare r :: post → buffers / 2 ≤ queuedCount pre

/-- A device that never reports more frames transferred than were requested. -/
def Honest {σ : Type} (D : Device σ) : Prop :=
  ∀ st buf off n r st1, D.writei st buf off n = (Res.ok r, st1) → r ≤ n

/-- The offsets of the writer task are multiples of the frame size `bpf` within the buffer,
and a call of `write` that returned without an error has its offset at the end or beyond. -/
def AlignInv {σ : Type} (bpf : Nat) (s : alsaWriter σ) : Prop :=
  s.bytesPerFrame = bpf ∧
  (∀ l f, s.pc = Pc.loop l f → bpf ∣ f.i ∧ f.i ≤ f.buf.length) ∧
  ∀ f err, s.pc = Pc.ret f err →
    bpf ∣ f.i ∧ f.i ≤ f.buf.length ∧ (err = none → f.buf.length ≤ f.i)

/-- The device calls of a history, in order: the latency queries, the prepares and the
transfers; the queue operations are left out. -/
def deviceOps (log : List Event) : List Event :=
  log.filter fun e => match e with
    | Event.delay => true
    | Event.prepare _ => true
    | Event.writei _ _ _ => true
    | _ => false

/-- What the device calls after a failed transfer at offset `off` of `frames` frames look
like: none yet; or first the latency query of the next pass (line 96), then a prepare, and
after a prepare that succeeded a transfer at offset `off` of `frames` frames. -/
def RetryShape (off frames : Nat) : List Event → Prop
  | [] => True
  | [Event.delay] => True
  | Event.delay :: Event.prepare (some _) :: _ => True
  | [Event.delay, Event.prepare none] => True
  | Event.delay :: Event.prepare none :: Event.writei o n _ :: _ => o = off ∧ n = frames
  | _ => False

/-- The stages of the recovery from a failed transfer of frame `f`, `new` being the history
since the failure: at the loop test, between the latency query and the prepare, between the
prepare and the transfer, and after. -/
def Retrying {σ : Type} (base : List Event) (bpf : Nat) (f : Frame) (s : alsaWriter σ) : Prop :=
  s.bytesPerFrame = bpf ∧ ∃ new, s.log = base ++ new ∧
    ((deviceOps new = [] ∧ s.running = false ∧ s.pc = Pc.loop Loc.head f) ∨
      (deviceOps new = [Event.delay] ∧ s.running = false ∧
        (s.pc = Pc.loop Loc.wait f ∨ s.pc = Pc.loop Loc.prep f)) ∨
      (deviceOps new = [Event.delay, Event.prepare none] ∧ s.pc = Pc.loop Loc.xfer f) ∨
      (∃ e rest, deviceOps new = Event.delay :: Event.prepare (some e) :: rest) ∨
      (∃ r rest, deviceOps new =
        Event.delay :: Event.prepare none :: Event.writei f.i (framesAt bpf f) r :: rest))

/-! ## The bytes on their way to the device -/

/-- The slices the calls of `Write` have sent to the ready queue, in the order of the sends
(for a single caller, the order of the calls). -/
def sent (log : List Event) : List (List Byte) :=
  log.filterMap fun e => match e with
    | Event.queued _ data => some data
    | _ => none

/-- What the writer task has still to transfer of the buffer it holds. -/
def rest : Pc → List Byte
  | Pc.idle => []
  | Pc.loop _ f => f.buf.drop f.i
  | Pc.ret f _ => f.buf.drop f.i

/-- The contents of the slots in the ready queue, in queue order. -/
def queuedBytes {σ : Type} (s : alsaWriter σ) : List Byte :=
  (s.work.map fun i => (s.buf.getD i nilSlice).bytes).flatten

/-- Whether a step is not a `Write` of fewer bytes than the slot it is handed already has. -/
def fitsAt {σ : Type} (s : alsaWriter σ) : Act → Bool
  | Act.writeBegin data =>
    match s.done with
    | [] => true
    | i :: _ => decide ((s.buf.getD i nilSlice).len ≤ data.length)
  | _ => true

/-- Whether no step of a run is a `Write` of fewer bytes than its slot already has. -/
def Fits {σ : Type} (D : Device σ) : alsaWriter σ → List Act → Bool
  | _, [] => true
  | s, a :: as =>
    fitsAt s a &&
      match step D s a with
      | some s1 => Fits D s1 as
      | none => true

/-- On the recording device of frame size `bpf`: every slot a call of `Write` holds has the
bytes the call was passed, a returned `write` has nothing left to transfer, and the bytes
received, those left of the buffer in flight and those queued make up the slices sent. -/
def DataInv (bpf : Nat) (s : alsaWriter (List Byte)) : Prop :=
  PoolInv s ∧
  s.bytesPerFrame = bpf ∧
  (∀ c ∈ s.calls, (s.buf.getD c.1 nilSlice).bytes = c.2) ∧
  (∀ f err, s.pc = Pc.ret f err → f.buf.length ≤ f.i) ∧
  s.dev ++ rest s.pc ++ queuedBytes s = (sent s.log).flatten

/-- Five calls of `Write` on a stereo writer, the first with five bytes: one frame and one
byte more. -/
def unalignedRun : List Act :=
  W 0 [1, 2, 3, 4, 5] ++ W 1 [6, 7, 8, 9] ++ W 2 [6, 7, 8, 9] ++ W 3 [6, 7, 8, 9] ++
    W 4 [6, 7, 8, 9]

/-- The writer task of a stereo writer has the five-byte buffer of slot 0 before it or in
hand, at offset 0 with nothing transferred or at offset 4. -/
def Stuck (s : alsaWriter (List Byte)) : Prop :=
  s.bytesPerFrame = 4 ∧ s.dev.length ≤ 4 ∧
  ((s.pc = Pc.idle ∧ s.dev = [] ∧ 0 < s.buf.length ∧
      (s.buf.getD 0 nilSlice).bytes = [1, 2, 3, 4, 5] ∧ ∃ tl, s.work = 0 :: tl) ∨
    ∃ l i, s.pc = Pc.loop l ⟨0, [1, 2, 3, 4, 5], i⟩ ∧ ((i = 0 ∧ s.dev = []) ∨ i = 4))

/-- Five calls `Write([1, 2, 3, 4])` on a fresh writer and the receive of the writer task:
index 0 is in flight and four indices are queued. -/
def prerollRun : List Act :=
  W 0 [1, 2, 3, 4] ++ W 1 [1, 2, 3, 4] ++ W 2 [1, 2, 3, 4] ++ W 3 [1, 2, 3, 4] ++
    W 4 [1, 2, 3, 4] ++ T 1

/-- The writer task of a writer that is not running has fewer than `buffers/2` indices queued
and either waits for an index, each queued slot being non-empty, or stands at the loop test or
in the pre-roll wait of a buffer it has not finished; the device has received nothing. -/
def Starved (s : alsaWriter (List Byte)) : Prop :=
  s.dev = [] ∧ s.running = false ∧ s.work.length < buffers / 2 ∧
  ((s.pc = Pc.idle ∧ ∀ j ∈ s.work, 0 < (s.buf.getD j nilSlice).bytes.length) ∨
    ∃ f, f.i < f.buf.length ∧ (s.pc = Pc.loop Loc.head f ∨ s.pc = Pc.loop Loc.wait f))

/-- A device whose transfers all fail with `EPIPE`, as after an underrun. -/
def brokenPipe : Device Unit where
  delay st := st
  prepare st := (none, st)
  writei st _ _ _ := (Res.fail 32, st)

/-- A stereo writer on `brokenPipe` whose writer task, running, is about to transfer the
eight bytes of slot 0 from offset 0, four indices being queued. -/
def atTransfer : alsaWriter Unit :=
  { construct stereo 3 () with
    done := [5, 6, 7]
    work := [1, 2, 3, 4]
    buf := [⟨[1, 2, 3, 4, 5, 6, 7, 8], 8⟩, ⟨[1, 2, 3, 4], 4⟩, ⟨[1, 2, 3, 4], 4⟩,
      ⟨[1, 2, 3, 4], 4⟩, ⟨[1, 2, 3, 4], 4⟩, nilSlice, nilSlice, nilSlice]
    running := true
    pc := Pc.loop Loc.xfer ⟨0, [1, 2, 3, 4, 5, 6, 7, 8], 0⟩ }

/-- A stereo writer on the recording device whose writer task, running, is about to transfer
the four bytes of slot 0 from offset 0, four indices being queued. -/
def transferring : alsaWriter (List Byte) :=
  { construct stereo 3 [] with
    done := [5, 6, 7]
    work := [1, 2, 3, 4]
    buf := [⟨[1, 2, 3, 4], 4⟩, ⟨[1, 2, 3, 4], 4⟩, ⟨[1, 2, 3, 4], 4⟩, ⟨[1, 2, 3, 4], 4⟩,
      ⟨[1, 2, 3, 4], 4⟩, nilSlice, nilSlice, nilSlice]
    running := true
    pc := Pc.loop Loc.xfer ⟨0, [1, 2, 3, 4], 0⟩ }

/-! ## Delivery of all that was sent -/

/-- Whether the pre-roll wait of `write` can end on a sequence of slices sent to the ready
queue: all of them are empty, or at least `buffers/2` slices follow the first non-empty
one. -/
def prerollOK : List (List Byte) → Bool
  | [] => true
  | b :: bs => if b = [] then prerollOK bs else decide (buffers / 2 ≤ bs.length)

/-- The buffer the writer task holds. -/
def inflightBufs : Pc → List (List Byte)
  | Pc.idle => []
  | Pc.loop _ f => [f.buf]
  | Pc.ret f _ => [f.buf]

/-- A bound on the steps the writer task has still to take on the buffer it holds. -/
def pcTodo : Pc → Nat
  | Pc.idle => 0
  | Pc.loop Loc.head f => 4 * (f.buf.length - f.i) + 5
  | Pc.loop Loc.wait f => 4 * (f.buf.length - f.i) + 4
  | Pc.loop Loc.prep f => 4 * (f.buf.length - f.i) + 3
  | Pc.loop Loc.xfer f => 4 * (f.buf.length - f.i) + 2
  | Pc.ret _ _ => 1

/-- A bound on the steps the writer task has still to take to empty the ready queue. -/
def todo {σ : Type} (s : alsaWriter σ) : Nat :=
  (s.work.map fun i => 4 * (s.buf.getD i nilSlice).bytes.length + 10).sum + pcTodo s.pc

/-- While the writer is not running the device has received nothing and the buffer in flight
is at offset 0; the writer task stands before a transfer only when running; and past the loop
test its offset is below the length of the buffer. -/
def ColdInv (s : alsaWriter (List Byte)) : Prop :=
  (s.running = false → s.dev = [] ∧ (∀ l f, s.pc = Pc.loop l f → f.i = 0) ∧
    ∀ f err, s.pc = Pc.ret f err → f.i = 0) ∧
  (∀ f, s.pc = Pc.loop Loc.xfer f → s.running = true) ∧
  ∀ l f, s.pc = Pc.loop l f → l ≠ Loc.head → f.i < f.buf.length

/-- The slices sent are, in order: those of the indices sent back (all empty while the writer
is not running), the buffer in flight, the buffers queued. -/
def ListInv (s : alsaWriter (List Byte)) : Prop :=
  ∃ pre, sent s.log = pre ++ (inflightBufs s.pc ++
      s.work.map fun i => (s.buf.getD i nilSlice).bytes) ∧
    (s.running = false → ∀ b ∈ pre, b = [])

/-- The invariants of the runs on the recording device of frame size `bpf`, together. -/
def FlowInv (bpf : Nat) (s : alsaWriter (List Byte)) : Prop :=
  DataInv bpf s ∧ AlignInv bpf s ∧ PreInv s ∧ ColdInv s ∧ ListInv s

/-! ## Runs and steps -/

theorem exec_cons {σ : Type} (D : Device σ) (s : alsaWriter σ) (a : Act) (as : List Act) :
    exec D s (a :: as) = (step D s a).bind fun s1 => exec D s1 as := rfl

theorem exec_invariant {σ : Type} (D : Device σ) (P : alsaWriter σ → Prop)
    (hstep : ∀ s a s1, P s → step D s a = some s1 → P s1) :
    ∀ (as : List Act) (s s1 : alsaWriter σ), P s → exec D s as = some s1 → P s1 := by
  intro as
  induction as with
  | nil =>
    intro s s1 hP h
    simp only [exec, Option.some.injEq] at h
    exact h ▸ hP
  | cons a as ih =>
    intro s s1 hP h
    rw [exec_cons] at h
    cases hs : step D s a with
    | none => simp [hs] at h
    | some s2 =>
      rw [hs] at h
      exact ih s2 s1 (hstep s a s2 hP hs) h

theorem Step_of_step {σ : Type} (D : Device σ) (s : alsaWriter σ) (a : Act) (s1 : alsaWriter σ)
    (h : step D s a = some s1) : Step D s a s1 := by
  cases a with
  | writeBegin data =>
    simp only [step, Write_begin] at h
    split at h
    · simp at h
    · rename_i i rest hd
      split at h
      · rename_i hi
        simp only [Option.some.injEq] at h
        subst h
        exact Step.writeBegin data i rest hd hi
      · simp at h
  | writeEnd i data =>
    simp only [step, Write_end] at h
    split at h
    · rename_i hm
      simp only [Option.some.injEq] at h
      subst h
      exact Step.writeEnd i data hm.1 hm.2
    · simp at h
  | thread =>
    simp only [step, thread_step] at h
    split at h
    · rename_i hpc
      split at h
      · simp at h
      · rename_i i rest hw
        split at h
        · rename_i hi
          simp only [Option.some.injEq] at h
          subst h
          exact Step.recv i rest hpc hw hi
        · simp at h
    · rename_i f hpc
      split at h
      · rename_i hlt
        simp only [Option.some.injEq] at h
        subst h
        exact Step.head f hpc hlt
      · rename_i hge
        simp only [Option.some.injEq] at h
        subst h
        exact Step.leave f hpc hge
    · rename_i f hpc
      split at h
      · rename_i hlt
        simp only [Option.some.injEq] at h
        subst h
        exact Step.sleep f hpc hlt
      · rename_i hge
        simp only [Option.some.injEq] at h
        subst h
        exact Step.ready f hpc hge
    · rename_i f hpc
      split at h
      · rename_i e d hD
        simp only [Option.some.injEq] at h
        subst h
        exact Step.prepFail f e d hpc hD
      · rename_i d hD
        simp only [Option.some.injEq] at h
        subst h
        exact Step.prepOk f d hpc hD
    · rename_i f hpc
      split at h
      · simp at h
      · rename_i hb
        split at h
        · rename_i r d hD
          simp only [Option.some.injEq] at h
          subst h
          exact Step.xferOk f r d hpc hb hD
        · rename_i e d hD
          simp only [Option.some.injEq] at h
          subst h
          exact Step.xferFail f e d hpc hb hD
    · rename_i f e hpc
      split at h
      · rename_i hl
        simp only [Option.some.injEq] at h
        subst h
        exact Step.give f e hpc hl
      · simp at h

theorem step_of_Step {σ : Type} (D : Device σ) (s : alsaWriter σ) (a : Act) (s1 : alsaWriter σ)
    (h : Step D s a s1) : step D s a = some s1 := by
  cases h with
  | writeBegin data i rest hd hi => simp [step, Write_begin, hd, hi]
  | writeEnd i data hm hw => simp [step, Write_end, hm, hw]
  | recv i rest hpc hw hi => simp [step, thread_step, hpc, hw, hi]
  | head f hpc hlt => simp [step, thread_step, hpc, hlt]
  | leave f hpc hge => simp [step, thread_step, hpc, hge]
  | sleep f hpc hlt => simp [step, thread_step, hpc, hlt]
  | ready f hpc hge => simp [step, thread_step, hpc, hge]
  | prepFail f e d hpc hD => simp [step, thread_step, hpc, hD]
  | prepOk f d hpc hD => simp [step, thread_step, hpc, hD]
  | xferOk f r d hpc hb hD => simp [step, thread_step, hpc, hb, hD]
  | xferFail f e d hpc hb hD => simp [step, thread_step, hpc, hb, hD]
  | give f err hpc hl => simp [step, thread_step, hpc, hl]

/-! ## The pool invariant -/

theorem count_range_buffers (x : Nat) :
    (List.range buffers).count x = if x < buffers then 1 else 0 := by
  split
  · rename_i h
    exact List.count_eq_one_of_mem (List.nodup_range _) (List.mem_range.mpr h)
  · rename_i h
    exact List.count_eq_zero_of_not_mem (fun hm => h (List.mem_range.mp hm))

theorem PoolInv_construct {σ : Type} (c : Config) (f : Nat) (dev : σ) :
    PoolInv (construct c f dev) := by
  refine ⟨by simp [construct], by simp [construct, inflight], ?_⟩
  intro x
  simp [construct, inflight, held, count_range_buffers]

theorem perm_cons_dropCall (c : Nat × List Byte) :
    ∀ calls : List (Nat × List Byte), c ∈ calls → calls.Perm (c :: dropCall c calls)
  | [], h => by simp at h
  | x :: xs, h => by
    by_cases hx : x = c
    · simp [dropCall, hx]
    · have hm : c ∈ xs := by
        rcases List.mem_cons.mp h with h1 | h1
        · exact absurd h1.symm hx
        · exact h1
      simp only [dropCall, hx, if_false]
      exact ((perm_cons_dropCall c xs hm).cons x).trans (List.Perm.swap c x _)

theorem count_map_fst_dropCall (calls : List (Nat × List Byte)) (i : Nat) (d : List Byte)
    (h : (i, d) ∈ calls) (x : Nat) :
    (calls.map Prod.fst).count x =
      ((dropCall (i, d) calls).map Prod.fst).count x + if i = x then 1 else 0 := by
  have hp := (perm_cons_dropCall (i, d) calls h).map Prod.fst
  rw [hp.count_eq]
  simp [List.count_cons]

theorem PoolInv_Step {σ : Type} (D : Device σ) (s : alsaWriter σ) (a : Act) (s1 : alsaWriter σ)
    (hP : PoolInv s) (h : Step D s a s1) : PoolInv s1 := by
  obtain ⟨hb, hl, hc⟩ := hP
  cases h with
  | writeBegin data i rest hd hi =>
    refine ⟨by simpa using hb, ?_, ?_⟩
    · simp [hd] at hl ⊢; omega
    · intro x
      have := hc x
      simp [hd, held, List.count_cons, List.count_append] at this ⊢
      omega
  | writeEnd i data hm hw =>
    refine ⟨hb, ?_, ?_⟩
    · have := (perm_cons_dropCall (i, data) s.calls hm).length_eq
      simp at this hl ⊢; omega
    · intro x
      have := hc x
      have h2 := count_map_fst_dropCall s.calls i data hm x
      simp [held, List.count_append, List.count_cons] at this h2 ⊢
      omega
  | recv i rest hpc hw hi =>
    refine ⟨hb, ?_, ?_⟩
    · simp [hw, hpc, inflight] at hl ⊢; omega
    · intro x
      have := hc x
      simp [hw, hpc, inflight, held, List.count_cons] at this ⊢
      omega
  | head f hpc hlt =>
    refine ⟨hb, ?_, ?_⟩
    · split <;> simpa [hpc, inflight] using hl
    · intro x
      have := hc x
      split <;> simpa [hpc, inflight, held] using this
  | sleep f hpc hlt => exact ⟨hb, hl, hc⟩
  | give f err hpc hl2 =>
    refine ⟨hb, ?_, ?_⟩
    · simp [hpc, inflight] at hl ⊢; omega
    · intro x
      have := hc x
      simp [hpc, inflight, held, List.count_append, List.count_cons] at this ⊢
      omega
  | _ =>
    exact ⟨hb, by simpa [*, inflight] using hl, fun x => by simpa [*, inflight, held] using hc x⟩

theorem PoolInv_exec {σ : Type} (D : Device σ) (c : Config) (f : Nat) (dev : σ)
    (as : List Act) (s : alsaWriter σ) (h : exec D (construct c f dev) as = some s) :
    PoolInv s :=
  exec_invariant D PoolInv (fun s a s1 hP hs => PoolInv_Step D s a s1 hP (Step_of_step D s a s1 hs))
    as _ s (PoolInv_construct c f dev) h

/-! ## Construction -/

theorem wrap_of_lt (w : Nat) (n : Nat) (h : n < 2 ^ w) : wrap w (n : Int) = n := by
  unfold wrap
  have h1 : ((n : Int)) % (2 : Int) ^ w = n := by
    apply Int.emod_eq_of_lt (by positivity)
    exact_mod_cast h
  rw [h1]; simp

theorem wrap_add_pow (w : Nat) (z : Int) : wrap w (z + 2 ^ w) = wrap w z := by
  unfold wrap
  simp

theorem wrap_sub_pow (w : Nat) (z : Int) : wrap w (z - 2 ^ w) = wrap w z := by
  unfold wrap
  simp

/-! ## Backpressure -/

theorem CountInv_Step {σ : Type} (D : Device σ) (s : alsaWriter σ) (a : Act) (s1 : alsaWriter σ)
    (hP : CountInv s) (h : Step D s a s1) : CountInv s1 := by
  unfold CountInv at hP ⊢
  cases h with
  | writeBegin data i rest hd hi => simp [hd] at hP ⊢; omega
  | writeEnd i data hm hw =>
    have := (perm_cons_dropCall (i, data) s.calls hm).length_eq
    simp [queuedCount, freedCount] at this hP ⊢; omega
  | sleep f hpc hlt => exact hP
  | give f err hpc hl2 => simp [queuedCount, freedCount] at hP ⊢; omega
  | _ => simpa [queuedCount, freedCount] using hP

theorem CountInv_exec {σ : Type} (D : Device σ) (c : Config) (f : Nat) (dev : σ)
    (as : List Act) (s : alsaWriter σ) (h : exec D (construct c f dev) as = some s) :
    CountInv s :=
  exec_invariant D CountInv
    (fun s a s1 hP hs => CountInv_Step D s a s1 hP (Step_of_step D s a s1 hs))
    as _ s (by simp [CountInv, construct, queuedCount, freedCount]) h

theorem mem_lt_of_PoolInv {σ : Type} (s : alsaWriter σ) (hP : PoolInv s) (i : Nat)
    (hi : i ∈ s.done) : i < s.buf.length := by
  obtain ⟨hb, _, hc⟩ := hP
  rw [hb]
  by_contra hge
  have := hc i
  rw [if_neg hge] at this
  have h1 : s.done.count i = 0 := by omega
  exact List.count_eq_zero.mp h1 hi

/-! ## The pre-roll -/

theorem append_singleton_eq_split (l pre post : List Event) (e p : Event)
    (h : l ++ [e] = pre ++ p :: post) :
    (post = [] ∧ l = pre ∧ e = p) ∨ ∃ post1, post = post1 ++ [e] ∧ l = pre ++ p :: post1 := by
  rcases List.eq_nil_or_concat post with hp | ⟨post1, x, hp⟩
  · subst hp
    have := List.append_inj' h rfl
    exact Or.inl ⟨rfl, this.1, by simpa using this.2⟩
  · subst hp
    have h2 : l ++ [e] = (pre ++ p :: post1) ++ [x] := by simpa using h
    have := List.append_inj' h2 rfl
    have hx : e = x := by simpa using this.2
    subst hx
    exact Or.inr ⟨post1, by simp, this.1⟩

theorem prepare_split_of_append (l : List Event) (e : Event) (n : Nat)
    (hold : ∀ pre r post, l = pre ++ Event.prepare r :: post → n ≤ queuedCount pre)
    (hnew : ∀ r, e = Event.prepare r → n ≤ queuedCount l) :
    ∀ pre r post, l ++ [e] = pre ++ Event.prepare r :: post → n ≤ queuedCount pre := by
  intro pre r post h
  rcases append_singleton_eq_split l pre post e _ h with ⟨_, hl, he⟩ | ⟨post1, _, hl⟩
  · subst hl
    exact hnew r he
  · exact hold pre r post1 hl

theorem queuedCount_append (l : List Event) (e : Event) :
    queuedCount (l ++ [e]) = queuedCount l + queuedCount [e] := by
  simp [queuedCount, List.countP_append]

theorem PreInv_Step {σ : Type} (D : Device σ) (s : alsaWriter σ) (a : Act) (s1 : alsaWriter σ)
    (hP : PreInv s) (h : Step D s a s1) : PreInv s1 := by
  obtain ⟨hw, hp, hq, hl⟩ := hP
  cases h with
  | writeBegin data i rest hd hi => exact ⟨hw, hp, hq, hl⟩
  | writeEnd i data hm hw2 =>
    refine ⟨hw, ?_, ?_, ?_⟩
    · intro f hf
      have := hp f hf
      exact ⟨this.1, by simp only [List.length_append]; exact Nat.le_add_right_of_le this.2⟩
    · simp [queuedCount_append, queuedCount] at hq ⊢; omega
    · exact prepare_split_of_append _ _ _ hl (by simp)
  | recv i rest hpc hw2 hi =>
    refine ⟨by simp, by simp, ?_, hl⟩
    simp [hw2] at hq ⊢; omega
  | head f hpc hlt =>
    refine ⟨?_, ?_, ?_, ?_⟩
    · intro g hg
      cases hr : s.running
      · rfl
      · simp [hr] at hg
    · intro g hg
      cases hr : s.running <;> simp [hr] at hg
    · simpa [queuedCount_append, queuedCount] using hq
    · exact prepare_split_of_append _ _ _ hl (by simp)
  | leave f hpc hge => exact ⟨by simp, by simp, hq, hl⟩
  | sleep f hpc hlt => exact ⟨hw, hp, hq, hl⟩
  | ready f hpc hge =>
    refine ⟨by simp, ?_, hq, hl⟩
    intro g _
    exact ⟨hw f hpc, by simpa using hge⟩
  | prepFail f e d hpc hD =>
    refine ⟨by simp, by simp, ?_, ?_⟩
    · simpa [queuedCount_append, queuedCount] using hq
    · exact prepare_split_of_append _ _ _ hl (fun _ _ => le_trans (hp f hpc).2 hq)
  | prepOk f d hpc hD =>
    refine ⟨by simp, by simp, ?_, ?_⟩
    · simpa [queuedCount_append, queuedCount] using hq
    · exact prepare_split_of_append _ _ _ hl (fun _ _ => le_trans (hp f hpc).2 hq)
  | xferOk f r d hpc hb hD =>
    refine ⟨by simp, by simp, ?_, ?_⟩
    · simpa [queuedCount_append, queuedCount] using hq
    · exact prepare_split_of_append _ _ _ hl (by simp)
  | xferFail f e d hpc hb hD =>
    refine ⟨by simp, by simp, ?_, ?_⟩
    · simpa [queuedCount_append, queuedCount] using hq
    · exact prepare_split_of_append _ _ _ hl (by simp)
  | give f err hpc hl2 =>
    refine ⟨by simp, by simp, ?_, ?_⟩
    · simpa [queuedCount_append, queuedCount] using hq
    · exact prepare_split_of_append _ _ _ hl (by simp)

theorem PreInv_exec {σ : Type} (D : Device σ) (c : Config) (f : Nat) (dev : σ)
    (as : List Act) (s : alsaWriter σ) (h : exec D (construct c f dev) as = some s) :
    PreInv s :=
  exec_invariant D PreInv
    (fun s a s1 hP hs => PreInv_Step D s a s1 hP (Step_of_step D s a s1 hs))
    as _ s (by simp [PreInv, construct, queuedCount]) h

/-! ## Chunking and frame alignment -/

theorem AlignInv_Step {σ : Type} (D : Device σ) (hD : Honest D) (bpf : Nat) (s : alsaWriter σ)
    (a : Act) (s1 : alsaWriter σ) (hP : AlignInv bpf s) (h : Step D s a s1) :
    AlignInv bpf s1 := by
  obtain ⟨hb, hl, hr⟩ := hP
  cases h with
  | writeBegin data i rest hd hi => exact ⟨hb, hl, hr⟩
  | writeEnd i data hm hw => exact ⟨hb, hl, hr⟩
  | recv i rest hpc hw hi =>
    refine ⟨hb, ?_, by simp⟩
    intro l f hf
    simp only [Pc.loop.injEq] at hf
    obtain ⟨_, hf⟩ := hf
    subst hf
    exact ⟨dvd_zero _, Nat.zero_le _⟩
  | head f hpc hlt =>
    refine ⟨hb, ?_, ?_⟩
    · intro l g hg
      have := hl _ f hpc
      cases hrun : s.running <;> simp [hrun] at hg <;> (obtain ⟨_, hg⟩ := hg; subst hg; exact this)
    · intro g err hg
      cases hrun : s.running <;> simp [hrun] at hg
  | leave f hpc hge =>
    refine ⟨hb, by simp, ?_⟩
    intro g err hg
    simp only [Pc.ret.injEq] at hg
    obtain ⟨hg, _⟩ := hg
    subst hg
    have := hl _ f hpc
    exact ⟨this.1, this.2, fun _ => by omega⟩
  | sleep f hpc hlt => exact ⟨hb, hl, hr⟩
  | ready f hpc hge =>
    refine ⟨hb, ?_, by simp⟩
    intro l g hg
    simp only [Pc.loop.injEq] at hg
    obtain ⟨_, hg⟩ := hg
    subst hg
    exact hl _ f hpc
  | prepFail f e d hpc hD2 =>
    refine ⟨hb, by simp, ?_⟩
    intro g err hg
    simp only [Pc.ret.injEq] at hg
    obtain ⟨hg, he⟩ := hg
    subst hg
    have := hl _ f hpc
    exact ⟨this.1, this.2, fun h0 => by simp [h0] at he⟩
  | prepOk f d hpc hD2 =>
    refine ⟨hb, ?_, by simp⟩
    intro l g hg
    simp only [Pc.loop.injEq] at hg
    obtain ⟨_, hg⟩ := hg
    subst hg
    exact hl _ f hpc
  | xferOk f r d hpc hb0 hD2 =>
    refine ⟨hb, ?_, by simp⟩
    intro l g hg
    simp only [Pc.loop.injEq] at hg
    obtain ⟨_, hg⟩ := hg
    subst hg
    have := hl _ f hpc
    have hr2 := hD _ _ _ _ _ _ hD2
    have h1 : r * s.bytesPerFrame ≤ framesAt s.bytesPerFrame f * s.bytesPerFrame :=
      Nat.mul_le_mul_right _ hr2
    have h2 : framesAt s.bytesPerFrame f * s.bytesPerFrame ≤ min (f.buf.length - f.i) max :=
      Nat.div_mul_le_self _ _
    have h3 : min (f.buf.length - f.i) max ≤ f.buf.length - f.i := Nat.min_le_left _ _
    refine ⟨?_, ?_⟩
    · show bpf ∣ f.i + r * s.bytesPerFrame
      rw [hb]
      exact Dvd.dvd.add this.1 (dvd_mul_left _ _)
    · show f.i + r * s.bytesPerFrame ≤ f.buf.length
      omega
  | xferFail f e d hpc hb0 hD2 =>
    refine ⟨hb, ?_, by simp⟩
    intro l g hg
    simp only [Pc.loop.injEq] at hg
    obtain ⟨_, hg⟩ := hg
    subst hg
    exact hl _ f hpc
  | give f err hpc hl2 => exact ⟨hb, by simp, by simp⟩

theorem AlignInv_exec {σ : Type} (D : Device σ) (hD : Honest D) (c : Config) (f : Nat) (dev : σ)
    (as : List Act) (s : alsaWriter σ) (h : exec D (construct c f dev) as = some s) :
    AlignInv (bytesPerFrameOf c) s :=
  exec_invariant D (AlignInv (bytesPerFrameOf c))
    (fun s a s1 hP hs => AlignInv_Step D hD _ s a s1 hP (Step_of_step D s a s1 hs))
    as _ s (by simp [AlignInv, construct]) h

/-! ## Retry after a failed transfer -/

theorem deviceOps_append (l m : List Event) : deviceOps (l ++ m) = deviceOps l ++ deviceOps m := by
  simp [deviceOps]

theorem RetryShape_of_Retrying {σ : Type} (base : List Event) (bpf : Nat) (f : Frame)
    (s : alsaWriter σ) (h : Retrying base bpf f s) :
    ∃ new, s.log = base ++ new ∧ RetryShape f.i (framesAt bpf f) (deviceOps new) := by
  obtain ⟨_, new, hlog, hcase⟩ := h
  refine ⟨new, hlog, ?_⟩
  rcases hcase with ⟨h0, _⟩ | ⟨h0, _⟩ | ⟨h0, _⟩ | ⟨e, rest, h0⟩ | ⟨r, rest, h0⟩
  · rw [h0]; simp [RetryShape]
  · rw [h0]; simp [RetryShape]
  · rw [h0]; simp [RetryShape]
  · rw [h0]; simp [RetryShape]
  · rw [h0]; simp [RetryShape]

theorem Step_log {σ : Type} (D : Device σ) (s : alsaWriter σ) (a : Act) (s1 : alsaWriter σ)
    (h : Step D s a s1) :
    s1.bytesPerFrame = s.bytesPerFrame ∧ ∃ ev, s1.log = s.log ++ ev := by
  cases h <;> exact ⟨rfl, ⟨_, by first | rfl | exact (List.append_nil _).symm⟩⟩

theorem Retrying_Step {σ : Type} (D : Device σ) (base : List Event) (bpf : Nat) (f : Frame)
    (hi : f.i < f.buf.length) (s : alsaWriter σ) (a : Act) (s1 : alsaWriter σ)
    (hP : Retrying base bpf f s) (h : Step D s a s1) : Retrying base bpf f s1 := by
  obtain ⟨hb, new, hlog, hcase⟩ := hP
  obtain ⟨hb1, ev, hev⟩ := Step_log D s a s1 h
  have hlog1 : s1.log = base ++ (new ++ ev) := by rw [hev, hlog, List.append_assoc]
  rcases hcase with ⟨h0, hrun, hpc⟩ | ⟨h0, hrun, hpc⟩ | ⟨h0, hpc⟩ | ⟨e, rest, h0⟩ |
    ⟨r, rest, h0⟩
  · -- at the loop test
    cases h with
    | writeBegin data i rest hd hi2 =>
      exact ⟨hb, new, hlog, Or.inl ⟨h0, hrun, hpc⟩⟩
    | writeEnd i data hm hw =>
      refine ⟨hb, new ++ [Event.queued i data], by simp [hlog], Or.inl ⟨?_, hrun, hpc⟩⟩
      rw [deviceOps_append, h0]; rfl
    | recv i rest hpc2 hw hi2 => simp [hpc2] at hpc
    | head g hpc2 hlt =>
      have hg : g = f := by simpa [hpc2] using hpc
      subst hg
      refine ⟨hb, new ++ [Event.delay], by simp [hlog], Or.inr (Or.inl ⟨?_, hrun, ?_⟩)⟩
      · rw [deviceOps_append, h0]; rfl
      · simp [hrun]
    | leave g hpc2 hge =>
      have hg : g = f := by simpa [hpc2] using hpc
      subst hg
      exact absurd hi hge
    | sleep g hpc2 hlt => simp [hpc2] at hpc
    | ready g hpc2 hge => simp [hpc2] at hpc
    | prepFail g e d hpc2 hD => simp [hpc2] at hpc
    | prepOk g d hpc2 hD => simp [hpc2] at hpc
    | xferOk g r d hpc2 hb0 hD => simp [hpc2] at hpc
    | xferFail g e d hpc2 hb0 hD => simp [hpc2] at hpc
    | give g err hpc2 hl => simp [hpc2] at hpc
  · -- between the latency query and the prepare
    cases h with
    | writeBegin data i rest hd hi2 =>
      exact ⟨hb, new, hlog, Or.inr (Or.inl ⟨h0, hrun, hpc⟩)⟩
    | writeEnd i data hm hw =>
      refine ⟨hb, new ++ [Event.queued i data], by simp [hlog],
        Or.inr (Or.inl ⟨?_, hrun, hpc⟩)⟩
      rw [deviceOps_append, h0]; rfl
    | recv i rest hpc2 hw hi2 => rcases hpc with h | h <;> simp [hpc2] at h
    | head g hpc2 hlt => rcases hpc with h | h <;> simp [hpc2] at h
    | leave g hpc2 hge => rcases hpc with h | h <;> simp [hpc2] at h
    | sleep g hpc2 hlt => exact ⟨hb, new, hlog, Or.inr (Or.inl ⟨h0, hrun, hpc⟩)⟩
    | ready g hpc2 hge =>
      have hg : g = f := by
        rcases hpc with h | h <;> simp [hpc2] at h
        exact h
      subst hg
      exact ⟨hb, new, hlog, Or.inr (Or.inl ⟨h0, hrun, Or.inr rfl⟩)⟩
    | prepFail g e d hpc2 hD =>
      refine ⟨hb, new ++ [Event.prepare (some e)], by simp [hlog],
        Or.inr (Or.inr (Or.inr (Or.inl ?_)))⟩
      exact ⟨e, [], by rw [deviceOps_append, h0]; rfl⟩
    | prepOk g d hpc2 hD =>
      have hg : g = f := by
        rcases hpc with h | h <;> simp [hpc2] at h
        exact h
      subst hg
      refine ⟨hb, new ++ [Event.prepare none], by simp [hlog],
        Or.inr (Or.inr (Or.inl ⟨?_, rfl⟩))⟩
      rw [deviceOps_append, h0]; rfl
    | xferOk g r d hpc2 hb0 hD => rcases hpc with h | h <;> simp [hpc2] at h
    | xferFail g e d hpc2 hb0 hD => rcases hpc with h | h <;> simp [hpc2] at h
    | give g err hpc2 hl => rcases hpc with h | h <;> simp [hpc2] at h
  · -- between the prepare and the transfer
    cases h with
    | writeBegin data i rest hd hi2 =>
      exact ⟨hb, new, hlog, Or.inr (Or.inr (Or.inl ⟨h0, hpc⟩))⟩
    | writeEnd i data hm hw =>
      refine ⟨hb, new ++ [Event.queued i data], by simp [hlog],
        Or.inr (Or.inr (Or.inl ⟨?_, hpc⟩))⟩
      rw [deviceOps_append, h0]; rfl
    | recv i rest hpc2 hw hi2 => simp [hpc2] at hpc
    | head g hpc2 hlt => simp [hpc2] at hpc
    | leave g hpc2 hge => simp [hpc2] at hpc
    | sleep g hpc2 hlt => simp [hpc2] at hpc
    | ready g hpc2 hge => simp [hpc2] at hpc
    | prepFail g e d hpc2 hD => simp [hpc2] at hpc
    | prepOk g d hpc2 hD => simp [hpc2] at hpc
    | xferOk g r d hpc2 hb0 hD =>
      have hg : g = f := by simpa [hpc2] using hpc
      subst hg
      refine ⟨hb, new ++ [Event.writei g.i (framesAt s.bytesPerFrame g) (Res.ok r)],
        by simp [hlog], Or.inr (Or.inr (Or.inr (Or.inr ⟨Res.ok r, [], ?_⟩)))⟩
      rw [deviceOps_append, h0, hb]; rfl
    | xferFail g e d hpc2 hb0 hD =>
      have hg : g = f := by simpa [hpc2] using hpc
      subst hg
      refine ⟨hb, new ++ [Event.writei g.i (framesAt s.bytesPerFrame g) (Res.fail e)],
        by simp [hlog], Or.inr (Or.inr (Or.inr (Or.inr ⟨Res.fail e, [], ?_⟩)))⟩
      rw [deviceOps_append, h0, hb]; rfl
    | give g err hpc2 hl => simp [hpc2] at hpc
  · exact ⟨hb1.trans hb, new ++ ev, hlog1,
      Or.inr (Or.inr (Or.inr (Or.inl
        ⟨e, rest ++ deviceOps ev, by rw [deviceOps_append, h0]; rfl⟩)))⟩
  · exact ⟨hb1.trans hb, new ++ ev, hlog1,
      Or.inr (Or.inr (Or.inr (Or.inr
        ⟨r, rest ++ deviceOps ev, by rw [deviceOps_append, h0]; rfl⟩)))⟩

/-! ## Data integrity -/

theorem fill_bytes_of_le (slot : Slice) (data : List Byte) (h : slot.len ≤ data.length) :
    (fill slot data).bytes = data ∧ (fill slot data).len = data.length := by
  unfold fill
  by_cases h1 : slot.len < data.length
  · by_cases h2 : slot.cap < data.length
    · simp [h1, h2, copy, make, Slice.bytes]
    · simp [h1, h2, copy, Slice.bytes]
  · have h3 : slot.len = data.length := by omega
    simp [h1, copy, Slice.bytes, h3]

theorem getD_set_self (l : List Slice) (i : Nat) (v : Slice) (h : i < l.length) :
    (l.set i v).getD i nilSlice = v := by
  simp [List.getD_eq_getElem?_getD, List.getElem?_set, h]

theorem getD_set_of_ne (l : List Slice) (i j : Nat) (v : Slice) (h : i ≠ j) :
    (l.set i v).getD j nilSlice = l.getD j nilSlice := by
  simp [List.getD_eq_getElem?_getD, List.getElem?_set, h]

theorem mem_of_mem_dropCall (c x : Nat × List Byte) :
    ∀ calls : List (Nat × List Byte), x ∈ dropCall c calls → x ∈ calls
  | [], h => by simp [dropCall] at h
  | y :: ys, h => by
    by_cases hy : y = c
    · simp only [dropCall, hy, if_true] at h
      exact List.mem_cons_of_mem _ h
    · simp only [dropCall, hy, if_false] at h
      rcases List.mem_cons.mp h with h1 | h1
      · exact h1 ▸ List.mem_cons_self _ _
      · exact List.mem_cons_of_mem _ (mem_of_mem_dropCall c x ys h1)

theorem sent_append (l m : List Event) : sent (l ++ m) = sent l ++ sent m := by
  simp [sent, List.filterMap_append]

theorem not_mem_of_count_zero_sum {σ : Type} (s : alsaWriter σ) (hP : PoolInv s) (i : Nat)
    (rest : List Nat) (hd : s.done = i :: rest) :
    i ∉ rest ∧ i ∉ s.work ∧ i ∉ inflight s.pc ∧ i ∉ held s := by
  have := hP.2.2 i
  rw [hd] at this
  simp only [List.count_cons_self] at this
  have hle : (if i < buffers then 1 else 0) ≤ 1 := by split <;> omega
  have h1 : rest.count i = 0 := by omega
  have h2 : s.work.count i = 0 := by omega
  have h3 : (inflight s.pc).count i = 0 := by omega
  have h4 : (held s).count i = 0 := by omega
  exact ⟨List.count_eq_zero.mp h1, List.count_eq_zero.mp h2, List.count_eq_zero.mp h3,
    List.count_eq_zero.mp h4⟩

theorem queuedBytes_set {σ : Type} (s : alsaWriter σ) (i : Nat) (v : Slice)
    (hi : i ∉ s.work) :
    (s.work.map fun j => ((s.buf.set i v).getD j nilSlice).bytes) =
      s.work.map fun j => (s.buf.getD j nilSlice).bytes := by
  apply List.map_congr_left
  intro j hj
  have : i ≠ j := fun h => hi (h ▸ hj)
  rw [getD_set_of_ne _ _ _ _ this]

theorem DataInv_Step (bpf : Nat) (s : alsaWriter (List Byte)) (a : Act)
    (s1 : alsaWriter (List Byte)) (hP : DataInv bpf s) (hfit : fitsAt s a = true)
    (h : Step (mock bpf) s a s1) : DataInv bpf s1 := by
  have hPool1 := PoolInv_Step (mock bpf) s a s1 hP.1 h
  obtain ⟨hPool, hb, hcalls, hret, hdata⟩ := hP
  refine ⟨hPool1, ?_⟩
  cases h with
  | writeBegin data i rest0 hd hi =>
    obtain ⟨_, hw, _, hh⟩ := not_mem_of_count_zero_sum s hPool i rest0 hd
    have hlen : (s.buf.getD i nilSlice).len ≤ data.length := by
      simpa [fitsAt, hd] using hfit
    refine ⟨hb, ?_, hret, ?_⟩
    · intro c hc
      rcases List.mem_append.mp hc with hc | hc
      · have hne : i ≠ c.1 := by
          intro heq
          exact hh (heq ▸ List.mem_map_of_mem Prod.fst hc)
        show ((s.buf.set i _).getD c.1 nilSlice).bytes = c.2
        rw [getD_set_of_ne _ _ _ _ hne]
        exact hcalls c hc
      · have hc2 : c = (i, data) := by simpa using hc
        subst hc2
        show ((s.buf.set i _).getD i nilSlice).bytes = data
        rw [getD_set_self _ _ _ hi]
        exact (fill_bytes_of_le _ _ hlen).1
    · show s.dev ++ rest s.pc ++ (List.map _ s.work).flatten = _
      rw [queuedBytes_set s i _ hw]
      exact hdata
  | writeEnd i data hm hw =>
    refine ⟨hb, ?_, hret, ?_⟩
    · intro c hc
      exact hcalls c (mem_of_mem_dropCall _ _ _ hc)
    · have hbytes : (s.buf.getD i nilSlice).bytes = data := hcalls (i, data) hm
      simp only [queuedBytes, sent_append, List.map_append, List.flatten_append] at hdata ⊢
      rw [← List.append_assoc, hdata]
      simp only [List.map_cons, List.map_nil, List.flatten_cons, List.flatten_nil, hbytes]
      simp [sent]
  | recv i rest0 hpc hw hi =>
    refine ⟨hb, hcalls, by simp, ?_⟩
    simp only [queuedBytes, hw, hpc, rest, List.map_cons, List.flatten_cons] at hdata ⊢
    simpa using hdata
  | head f hpc hlt =>
    refine ⟨hb, hcalls, ?_, ?_⟩
    · intro g err hg
      cases hrun : s.running <;> simp [hrun] at hg
    · have hr : rest (if s.running = true then Pc.loop Loc.xfer f else Pc.loop Loc.wait f) =
          rest s.pc := by
        cases hrun : s.running <;> simp [hpc, rest]
      simp only [queuedBytes, sent_append] at hdata ⊢
      simp only [hr]
      simpa [mock, sent] using hdata
  | leave f hpc hge =>
    refine ⟨hb, hcalls, ?_, ?_⟩
    · intro g err hg
      simp only [Pc.ret.injEq] at hg
      obtain ⟨hg, _⟩ := hg
      subst hg
      omega
    · simpa [queuedBytes, hpc, rest] using hdata
  | sleep f hpc hlt => exact ⟨hb, hcalls, hret, hdata⟩
  | ready f hpc hge =>
    refine ⟨hb, hcalls, by simp, ?_⟩
    simpa [queuedBytes, hpc, rest] using hdata
  | prepFail f e d hpc hD => simp [mock] at hD
  | prepOk f d hpc hD =>
    have hd : d = s.dev := by
      simp [mock] at hD
      exact hD.symm
    subst hd
    refine ⟨hb, hcalls, by simp, ?_⟩
    simp only [queuedBytes, sent_append] at hdata ⊢
    simpa [hpc, rest, sent] using hdata
  | xferOk f r d hpc hb0 hD =>
    simp only [mock, Prod.mk.injEq, Res.ok.injEq] at hD
    obtain ⟨hr, hd⟩ := hD
    subst hd
    refine ⟨hb, hcalls, by simp, ?_⟩
    simp only [queuedBytes, sent_append, hpc, rest] at hdata ⊢
    have hsplit : List.take (framesAt s.bytesPerFrame f * bpf) (List.drop f.i f.buf) ++
        List.drop (f.i + r * s.bytesPerFrame) f.buf = List.drop f.i f.buf := by
      rw [← hr, hb, ← List.drop_drop]
      exact List.take_append_drop _ _
    have hs : sent [Event.writei f.i (framesAt s.bytesPerFrame f) (Res.ok r)] = [] := rfl
    rw [hs, List.append_nil, ← hdata, List.append_assoc s.dev, hsplit]
  | xferFail f e d hpc hb0 hD => simp [mock] at hD
  | give f err hpc hl =>
    refine ⟨hb, hcalls, by simp, ?_⟩
    have hnil : List.drop f.i f.buf = [] := List.drop_eq_nil_of_le (hret f err hpc)
    simp only [queuedBytes, sent_append, hpc, rest, hnil] at hdata ⊢
    simpa [sent] using hdata

theorem exec_invariant_fits {σ : Type} (D : Device σ) (P : alsaWriter σ → Prop)
    (hstep : ∀ s a s1, P s → fitsAt s a = true → step D s a = some s1 → P s1) :
    ∀ (as : List Act) (s s1 : alsaWriter σ), P s → Fits D s as = true →
      exec D s as = some s1 → P s1 := by
  intro as
  induction as with
  | nil =>
    intro s s1 hP _ h
    simp only [exec, Option.some.injEq] at h
    exact h ▸ hP
  | cons a as ih =>
    intro s s1 hP hfit h
    rw [exec_cons] at h
    cases hs : step D s a with
    | none => simp [hs] at h
    | some s2 =>
      rw [hs] at h
      simp only [Fits, hs, Bool.and_eq_true] at hfit
      exact ih s2 s1 (hstep s a s2 hP hfit.1 hs) hfit.2 h

theorem DataInv_construct (c : Config) (f : Nat) :
    DataInv (bytesPerFrameOf c) (construct c f []) := by
  refine ⟨PoolInv_construct c f [], rfl, ?_, ?_, ?_⟩
  · intro x hx
    simp [construct] at hx
  · intro g err hg
    simp [construct] at hg
  · simp [construct, rest, queuedBytes, sent]

theorem DataInv_exec (c : Config) (f : Nat) (as : List Act) (s : alsaWriter (List Byte))
    (h : exec (mock (bytesPerFrameOf c)) (construct c f []) as = some s)
    (hfit : Fits (mock (bytesPerFrameOf c)) (construct c f []) as = true) :
    DataInv (bytesPerFrameOf c) s :=
  exec_invariant_fits (mock (bytesPerFrameOf c)) (DataInv (bytesPerFrameOf c))
    (fun s a s1 hP hf hs => DataInv_Step _ s a s1 hP hf (Step_of_step _ s a s1 hs))
    as _ s (DataInv_construct c f) hfit h

theorem Honest_mock (bpf : Nat) : Honest (mock bpf) := by
  intro st buf off n r st1 h
  simp only [mock, Prod.mk.injEq, Res.ok.injEq] at h
  omega

theorem threadRun_succ {σ : Type} (D : Device σ) (n : Nat) (s : alsaWriter σ) :
    threadRun D (n + 1) s = (thread_step D s).bind fun s1 => threadRun D n s1 := rfl

theorem threadRun_add {σ : Type} (D : Device σ) (m n : Nat) (s : alsaWriter σ) :
    threadRun D (m + n) s = (threadRun D m s).bind fun s1 => threadRun D n s1 := by
  induction m generalizing s with
  | zero => simp [threadRun]
  | succ m ih =>
    rw [Nat.add_right_comm, threadRun_succ, threadRun_succ]
    cases h : thread_step D s with
    | none => simp
    | some s1 => simp [ih]

theorem framesAt_pos (bpf : Nat) (f : Frame) (hb1 : 1 ≤ bpf) (hbm : bpf ≤ max)
    (hlt : f.i < f.buf.length) (hdi : bpf ∣ f.i) (hdl : bpf ∣ f.buf.length) :
    1 ≤ framesAt bpf f := by
  unfold framesAt
  have hd : bpf ∣ f.buf.length - f.i := Nat.dvd_sub' hdl hdi
  have hle : bpf ≤ f.buf.length - f.i := Nat.le_of_dvd (by omega) hd
  exact Nat.div_pos (le_min hle hbm) (by omega)

theorem run_buffer_end (bpf : Nat) (s : alsaWriter (List Byte)) (f : Frame)
    (hpc : s.pc = Pc.loop Loc.head f) (hle : f.i ≤ f.buf.length) (hge : ¬ f.i < f.buf.length) :
    ∃ n s1, threadRun (mock bpf) n s = some s1 ∧
      s1.pc = Pc.ret { f with i := f.buf.length } none ∧
      s1.dev = s.dev ++ f.buf.drop f.i ∧ s1.running = s.running := by
  have heq : f.i = f.buf.length := by omega
  refine ⟨1, { s with pc := Pc.ret f none }, ?_, ?_, ?_, rfl⟩
  · rw [threadRun_succ]
    have := step_of_Step (mock bpf) s _ _ (Step.leave f hpc hge)
    simp only [step] at this
    rw [this]
    rfl
  · simp [← heq]
  · simp [heq]

theorem run_chunk (bpf : Nat) (s : alsaWriter (List Byte)) (f : Frame)
    (hpc : s.pc = Pc.loop Loc.xfer f) (hb : s.bytesPerFrame = bpf) (hb1 : 1 ≤ bpf) :
    ∃ s1, thread_step (mock bpf) s = some s1 ∧
      s1.pc = Pc.loop Loc.head { f with i := f.i + framesAt bpf f * bpf } ∧
      s1.dev = s.dev ++ (f.buf.drop f.i).take (framesAt bpf f * bpf) ∧
      s1.running = s.running ∧ s1.bytesPerFrame = bpf := by
  have h := step_of_Step (mock bpf) s _ _
    (Step.xferOk f (framesAt bpf f) (s.dev ++ (f.buf.drop f.i).take (framesAt bpf f * bpf))
      hpc (by omega) (by simp [mock, hb]))
  simp only [step] at h
  exact ⟨_, h, by simp [hb], rfl, rfl, hb⟩

theorem run_head_running (bpf : Nat) (s : alsaWriter (List Byte)) (f : Frame)
    (hpc : s.pc = Pc.loop Loc.head f) (hlt : f.i < f.buf.length) (hrun : s.running = true) :
    ∃ s1, thread_step (mock bpf) s = some s1 ∧ s1.pc = Pc.loop Loc.xfer f ∧
      s1.dev = s.dev ∧ s1.running = true ∧ s1.bytesPerFrame = s.bytesPerFrame := by
  have h := step_of_Step (mock bpf) s _ _ (Step.head f hpc hlt)
  simp only [step] at h
  exact ⟨_, h, by simp [hrun], rfl, hrun, rfl⟩

theorem run_buffer_running (bpf : Nat) (hb1 : 1 ≤ bpf) (hbm : bpf ≤ max) :
    ∀ (m : Nat) (s : alsaWriter (List Byte)) (f : Frame), f.buf.length - f.i ≤ m →
      s.pc = Pc.loop Loc.head f → s.bytesPerFrame = bpf → s.running = true →
      bpf ∣ f.i → bpf ∣ f.buf.length → f.i ≤ f.buf.length →
      ∃ n s1, threadRun (mock bpf) n s = some s1 ∧
        s1.pc = Pc.ret { f with i := f.buf.length } none ∧
        s1.dev = s.dev ++ f.buf.drop f.i ∧ s1.running = true := by
  intro m
  induction m with
  | zero =>
    intro s f hm hpc _ hrun _ _ hle
    obtain ⟨n, s1, h1, h2, h3, h4⟩ := run_buffer_end bpf s f hpc hle (by omega)
    exact ⟨n, s1, h1, h2, h3, h4.trans hrun⟩
  | succ m ih =>
    intro s f hm hpc hb hrun hdi hdl hle
    by_cases hlt : f.i < f.buf.length
    · have hfr := framesAt_pos bpf f hb1 hbm hlt hdi hdl
      have hk1 : framesAt bpf f * bpf ≤ min (f.buf.length - f.i) max := Nat.div_mul_le_self _ _
      have hk2 : min (f.buf.length - f.i) max ≤ f.buf.length - f.i := Nat.min_le_left _ _
      have hk3 : 1 ≤ framesAt bpf f * bpf := Nat.mul_pos hfr hb1
      obtain ⟨s2, hs2, hpc2, hdev2, hrun2, hb2⟩ := run_head_running bpf s f hpc hlt hrun
      obtain ⟨s3, hs3, hpc3, hdev3, hrun3, hb3⟩ := run_chunk bpf s2 f hpc2 (hb2.trans hb) hb1
      obtain ⟨n, s1, hn, hpc1, hdev1, hrun1⟩ := ih s3 { f with i := f.i + framesAt bpf f * bpf }
        (by simp only; omega) hpc3 hb3 (hrun3.trans hrun2)
        (Dvd.dvd.add hdi (dvd_mul_left _ _)) hdl (by simp only; omega)
      refine ⟨n + 2, s1, ?_, hpc1, ?_, hrun1⟩
      · simp only [threadRun_succ, hs2, hs3, Option.some_bind]
        exact hn
      · rw [hdev1, hdev3, hdev2]
        simp only [List.append_assoc, List.append_cancel_left_eq]
        show _ ++ List.drop (f.i + framesAt bpf f * bpf) f.buf = _
        rw [← List.drop_drop]
        exact List.take_append_drop _ _
    · obtain ⟨n, s1, h1, h2, h3, h4⟩ := run_buffer_end bpf s f hpc hle hlt
      exact ⟨n, s1, h1, h2, h3, h4.trans hrun⟩

theorem run_head_stopped (bpf : Nat) (s : alsaWriter (List Byte)) (f : Frame)
    (hpc : s.pc = Pc.loop Loc.head f) (hlt : f.i < f.buf.length) (hrun : s.running = false) :
    ∃ s1, thread_step (mock bpf) s = some s1 ∧ s1.pc = Pc.loop Loc.wait f ∧
      s1.dev = s.dev ∧ s1.bytesPerFrame = s.bytesPerFrame ∧ s1.work = s.work := by
  have h := step_of_Step (mock bpf) s _ _ (Step.head f hpc hlt)
  simp only [step] at h
  exact ⟨_, h, by simp [hrun], rfl, rfl, rfl⟩

theorem run_ready (bpf : Nat) (s : alsaWriter (List Byte)) (f : Frame)
    (hpc : s.pc = Pc.loop Loc.wait f) (hw : buffers / 2 ≤ s.work.length) :
    ∃ s1, thread_step (mock bpf) s = some s1 ∧ s1.pc = Pc.loop Loc.prep f ∧
      s1.dev = s.dev ∧ s1.bytesPerFrame = s.bytesPerFrame := by
  have h := step_of_Step (mock bpf) s _ _ (Step.ready f hpc (by omega))
  simp only [step] at h
  exact ⟨_, h, rfl, rfl, rfl⟩

theorem run_prep (bpf : Nat) (s : alsaWriter (List Byte)) (f : Frame)
    (hpc : s.pc = Pc.loop Loc.prep f) :
    ∃ s1, thread_step (mock bpf) s = some s1 ∧ s1.pc = Pc.loop Loc.xfer f ∧
      s1.dev = s.dev ∧ s1.bytesPerFrame = s.bytesPerFrame ∧ s1.running = true := by
  have h := step_of_Step (mock bpf) s _ _ (Step.prepOk f s.dev hpc (by simp [mock]))
  simp only [step] at h
  exact ⟨_, h, rfl, rfl, rfl, rfl⟩

theorem run_preroll (bpf : Nat) (s : alsaWriter (List Byte)) (f : Frame)
    (hpc : s.pc = Pc.loop Loc.head f) (hlt : f.i < f.buf.length) (hrun : s.running = false)
    (hw : buffers / 2 ≤ s.work.length) (hb : s.bytesPerFrame = bpf) (hb1 : 1 ≤ bpf) :
    ∃ s1, threadRun (mock bpf) 4 s = some s1 ∧
      s1.pc = Pc.loop Loc.head { f with i := f.i + framesAt bpf f * bpf } ∧
      s1.dev = s.dev ++ (f.buf.drop f.i).take (framesAt bpf f * bpf) ∧
      s1.running = true ∧ s1.bytesPerFrame = bpf := by
  obtain ⟨s2, hs2, hpc2, hdev2, hb2, hw2⟩ := run_head_stopped bpf s f hpc hlt hrun
  obtain ⟨s3, hs3, hpc3, hdev3, hb3⟩ := run_ready bpf s2 f hpc2 (hw2 ▸ hw)
  obtain ⟨s4, hs4, hpc4, hdev4, hb4, hrun4⟩ := run_prep bpf s3 f hpc3
  obtain ⟨s5, hs5, hpc5, hdev5, hrun5, hb5⟩ := run_chunk bpf s4 f hpc4
    (hb4.trans (hb3.trans (hb2.trans hb))) hb1
  refine ⟨s5, ?_, hpc5, ?_, hrun5.trans hrun4, hb5⟩
  · simp only [threadRun_succ, threadRun, hs2, hs3, hs4, hs5, Option.some_bind]
  · rw [hdev5, hdev4, hdev3, hdev2]

theorem threadRun_invariant {σ : Type} (D : Device σ) (P : alsaWriter σ → Prop)
    (hstep : ∀ s s1, P s → thread_step D s = some s1 → P s1) :
    ∀ (n : Nat) (s s1 : alsaWriter σ), P s → threadRun D n s = some s1 → P s1 := by
  intro n
  induction n with
  | zero =>
    intro s s1 hP h
    simp only [threadRun, Option.some.injEq] at h
    exact h ▸ hP
  | succ n ih =>
    intro s s1 hP h
    rw [threadRun_succ] at h
    cases hs : thread_step D s with
    | none => simp [hs] at h
    | some s2 =>
      rw [hs] at h
      exact ih s2 s1 (hstep s s2 hP hs) h

theorem Stuck_step (s s1 : alsaWriter (List Byte)) (hP : Stuck s)
    (h : thread_step (mock 4) s = some s1) : Stuck s1 := by
  have hS := Step_of_step (mock 4) s Act.thread s1 h
  obtain ⟨hb, hlen, hcase⟩ := hP
  rcases hcase with ⟨hpc, hdev, hbl, hbuf, tl, hw⟩ | ⟨l, i, hpc, hi⟩
  · cases hS with
    | recv j rest0 hpc2 hw2 hj =>
      rw [hw] at hw2
      simp only [List.cons.injEq] at hw2
      obtain ⟨hj0, _⟩ := hw2
      subst hj0
      refine ⟨hb, hlen, Or.inr ⟨Loc.head, 0, ?_, Or.inl ⟨rfl, hdev⟩⟩⟩
      show Pc.loop Loc.head ⟨0, (s.buf.getD 0 nilSlice).bytes, 0⟩ = _
      rw [hbuf]
    | head f hpc2 hlt => simp [hpc] at hpc2
    | leave f hpc2 hge => simp [hpc] at hpc2
    | sleep f hpc2 hlt => simp [hpc] at hpc2
    | ready f hpc2 hge => simp [hpc] at hpc2
    | prepFail f e d hpc2 hD => simp [hpc] at hpc2
    | prepOk f d hpc2 hD => simp [hpc] at hpc2
    | xferOk f r d hpc2 hb0 hD => simp [hpc] at hpc2
    | xferFail f e d hpc2 hb0 hD => simp [hpc] at hpc2
    | give f err hpc2 hl => simp [hpc] at hpc2
  · cases hS with
    | recv j rest0 hpc2 hw2 hj => simp [hpc] at hpc2
    | head f hpc2 hlt =>
      rw [hpc] at hpc2
      simp only [Pc.loop.injEq] at hpc2
      obtain ⟨_, hf⟩ := hpc2
      subst hf
      refine ⟨hb, hlen, Or.inr ?_⟩
      cases hrun : s.running
      · exact ⟨Loc.wait, i, by simp, hi⟩
      · exact ⟨Loc.xfer, i, by simp, hi⟩
    | leave f hpc2 hge =>
      rw [hpc] at hpc2
      simp only [Pc.loop.injEq] at hpc2
      obtain ⟨_, hf⟩ := hpc2
      subst hf
      rcases hi with ⟨hi, _⟩ | hi <;> simp [hi] at hge
    | sleep f hpc2 hlt => exact ⟨hb, hlen, Or.inr ⟨l, i, hpc, hi⟩⟩
    | ready f hpc2 hge =>
      rw [hpc] at hpc2
      simp only [Pc.loop.injEq] at hpc2
      obtain ⟨_, hf⟩ := hpc2
      subst hf
      exact ⟨hb, hlen, Or.inr ⟨Loc.prep, i, rfl, hi⟩⟩
    | prepFail f e d hpc2 hD => simp [mock] at hD
    | prepOk f d hpc2 hD =>
      rw [hpc] at hpc2
      simp only [Pc.loop.injEq] at hpc2
      obtain ⟨_, hf⟩ := hpc2
      subst hf
      have hd : d = s.dev := by
        simp [mock] at hD
        exact hD.symm
      subst hd
      exact ⟨hb, hlen, Or.inr ⟨Loc.xfer, i, rfl, hi⟩⟩
    | xferOk f r d hpc2 hb0 hD =>
      rw [hpc] at hpc2
      simp only [Pc.loop.injEq] at hpc2
      obtain ⟨_, hf⟩ := hpc2
      subst hf
      simp only [mock, Prod.mk.injEq, Res.ok.injEq] at hD
      obtain ⟨hr, hd⟩ := hD
      subst hd
      subst hr
      rcases hi with ⟨hi, hdev⟩ | hi
      · subst hi
        refine ⟨hb, ?_, Or.inr ⟨Loc.head, 4, ?_, Or.inr rfl⟩⟩
        · simp [hdev, hb, framesAt, max]
        · simp [hb, framesAt, max]
      · subst hi
        refine ⟨hb, ?_, Or.inr ⟨Loc.head, 4, ?_, Or.inr rfl⟩⟩
        · simpa [hb, framesAt, max] using hlen
        · simp [hb, framesAt, max]
    | xferFail f e d hpc2 hb0 hD => simp [mock] at hD
    | give f err hpc2 hl => simp [hpc] at hpc2

theorem Starved_step (bpf : Nat) (s s1 : alsaWriter (List Byte)) (hP : Starved s)
    (h : thread_step (mock bpf) s = some s1) : Starved s1 := by
  have hS := Step_of_step (mock bpf) s Act.thread s1 h
  obtain ⟨hdev, hrun, hw, hcase⟩ := hP
  rcases hcase with ⟨hpc, hne⟩ | ⟨f, hlt, hpc⟩
  · cases hS with
    | recv j rest0 hpc2 hw2 hj =>
      refine ⟨hdev, hrun, ?_, Or.inr ⟨_, ?_, Or.inl rfl⟩⟩
      · rw [hw2] at hw
        simp only [List.length_cons] at hw
        show rest0.length < buffers / 2
        omega
      · exact hne j (by simp [hw2])
    | head f hpc2 hlt => simp [hpc] at hpc2
    | leave f hpc2 hge => simp [hpc] at hpc2
    | sleep f hpc2 hlt => simp [hpc] at hpc2
    | ready f hpc2 hge => simp [hpc] at hpc2
    | prepFail f e d hpc2 hD => simp [hpc] at hpc2
    | prepOk f d hpc2 hD => simp [hpc] at hpc2
    | xferOk f r d hpc2 hb0 hD => simp [hpc] at hpc2
    | xferFail f e d hpc2 hb0 hD => simp [hpc] at hpc2
    | give f err hpc2 hl => simp [hpc] at hpc2
  · cases hS with
    | recv j rest0 hpc2 hw2 hj => rcases hpc with hpc | hpc <;> simp [hpc] at hpc2
    | head g hpc2 hlt2 =>
      have hg : g = f := by
        rcases hpc with hpc | hpc <;> simp [hpc] at hpc2
        exact hpc2.symm
      subst hg
      refine ⟨by simpa [mock] using hdev, hrun, hw, Or.inr ⟨g, hlt, Or.inr ?_⟩⟩
      simp [hrun]
    | leave g hpc2 hge =>
      have hg : g = f := by
        rcases hpc with hpc | hpc <;> simp [hpc] at hpc2
        exact hpc2.symm
      subst hg
      exact absurd hlt hge
    | sleep g hpc2 hlt2 => exact ⟨hdev, hrun, hw, Or.inr ⟨f, hlt, hpc⟩⟩
    | ready g hpc2 hge => exact absurd hw hge
    | prepFail g e d hpc2 hD => rcases hpc with hpc | hpc <;> simp [hpc] at hpc2
    | prepOk g d hpc2 hD => rcases hpc with hpc | hpc <;> simp [hpc] at hpc2
    | xferOk g r d hpc2 hb0 hD => rcases hpc with hpc | hpc <;> simp [hpc] at hpc2
    | xferFail g e d hpc2 hb0 hD => rcases hpc with hpc | hpc <;> simp [hpc] at hpc2
    | give g err hpc2 hl => rcases hpc with hpc | hpc <;> simp [hpc] at hpc2

/-! ## Delivery of all that was sent -/

theorem ColdInv_Step (bpf : Nat) (s : alsaWriter (List Byte)) (a : Act)
    (s1 : alsaWriter (List Byte)) (hP : ColdInv s) (h : Step (mock bpf) s a s1) :
    ColdInv s1 := by
  obtain ⟨hcold, hx, hloc⟩ := hP
  cases h with
  | writeBegin data i rest0 hd hi => exact ⟨hcold, hx, hloc⟩
  | writeEnd i data hm hw => exact ⟨hcold, hx, hloc⟩
  | recv i rest0 hpc hw hi =>
    refine ⟨fun hr => ⟨(hcold hr).1, ?_, by simp⟩, by simp, ?_⟩
    · intro l f hf
      simp only [Pc.loop.injEq] at hf
      rw [← hf.2]
    · intro l f hf hl
      simp only [Pc.loop.injEq] at hf
      exact absurd hf.1.symm hl
  | head f hpc hlt =>
    refine ⟨fun hr => ⟨by simpa [mock] using (hcold hr).1, ?_, ?_⟩, ?_, ?_⟩
    · intro l g hg
      have hr2 : s.running = false := hr
      simp only [hr2, Bool.false_eq_true, if_false, Pc.loop.injEq] at hg
      rw [← hg.2]
      exact (hcold hr).2.1 _ f hpc
    · intro g err hg
      have hr2 : s.running = false := hr
      simp [hr2] at hg
    · intro g hg
      cases hrun : s.running
      · simp [hrun] at hg
      · rfl
    · intro l g hg _
      cases hrun : s.running <;> simp [hrun] at hg <;> (rw [← hg.2]; exact hlt)
  | leave f hpc hge =>
    refine ⟨fun hr => ⟨(hcold hr).1, by simp, ?_⟩, by simp, by simp⟩
    intro g err hg
    simp only [Pc.ret.injEq] at hg
    rw [← hg.1]
    exact (hcold hr).2.1 _ f hpc
  | sleep f hpc hlt => exact ⟨hcold, hx, hloc⟩
  | ready f hpc hge =>
    refine ⟨fun hr => ⟨(hcold hr).1, ?_, by simp⟩, by simp, ?_⟩
    · intro l g hg
      simp only [Pc.loop.injEq] at hg
      rw [← hg.2]
      exact (hcold hr).2.1 _ f hpc
    · intro l g hg _
      simp only [Pc.loop.injEq] at hg
      rw [← hg.2]
      exact hloc _ f hpc (by simp)
  | prepFail f e d hpc hD => simp [mock] at hD
  | prepOk f d hpc hD =>
    refine ⟨fun hr => by simp at hr, fun _ _ => rfl, ?_⟩
    intro l g hg _
    simp only [Pc.loop.injEq] at hg
    rw [← hg.2]
    exact hloc _ f hpc (by simp)
  | xferOk f r d hpc hb0 hD =>
    have hrun := hx f hpc
    refine ⟨fun hr => ?_, by simp, ?_⟩
    · have hr2 : s.running = false := hr
      rw [hrun] at hr2
      exact absurd hr2 (by simp)
    · intro l g hg hl
      simp only [Pc.loop.injEq] at hg
      exact absurd hg.1.symm hl
  | xferFail f e d hpc hb0 hD => simp [mock] at hD
  | give f err hpc hl =>
    exact ⟨fun hr => ⟨(hcold hr).1, by simp, by simp⟩, by simp, by simp⟩

theorem ListInv_Step (bpf : Nat) (s : alsaWriter (List Byte)) (a : Act)
    (s1 : alsaWriter (List Byte)) (hD : DataInv bpf s) (hC : ColdInv s) (hP : ListInv s)
    (h : Step (mock bpf) s a s1) : ListInv s1 := by
  obtain ⟨hPool, _, hcalls, hret, _⟩ := hD
  obtain ⟨pre, hsent, hpre⟩ := hP
  cases h with
  | writeBegin data i rest0 hd hi =>
    obtain ⟨_, hw, _, _⟩ := not_mem_of_count_zero_sum s hPool i rest0 hd
    refine ⟨pre, ?_, hpre⟩
    show sent s.log = pre ++ (inflightBufs s.pc ++ List.map _ s.work)
    rw [queuedBytes_set s i _ hw]
    exact hsent
  | writeEnd i data hm hw =>
    have hbytes : (s.buf.getD i nilSlice).bytes = data := hcalls (i, data) hm
    refine ⟨pre, ?_, hpre⟩
    show sent (s.log ++ [Event.queued i data]) =
      pre ++ (inflightBufs s.pc ++ List.map _ (s.work ++ [i]))
    rw [sent_append, hsent, List.map_append]
    have hs : sent [Event.queued i data] = [data] := rfl
    rw [hs, List.map_cons, List.map_nil, hbytes]
    simp
  | recv i rest0 hpc hw hi =>
    refine ⟨pre, ?_, hpre⟩
    rw [hpc, hw] at hsent
    simpa [inflightBufs] using hsent
  | head f hpc hlt =>
    refine ⟨pre, ?_, hpre⟩
    have hi : inflightBufs (if s.running = true then Pc.loop Loc.xfer f
        else Pc.loop Loc.wait f) = inflightBufs s.pc := by
      cases hrun : s.running <;> simp [hpc, inflightBufs]
    show sent (s.log ++ [Event.delay]) = pre ++ (inflightBufs _ ++ _)
    rw [sent_append, hi, ← hsent]
    simp [sent]
  | leave f hpc hge =>
    refine ⟨pre, ?_, hpre⟩
    rw [hpc] at hsent
    simpa [inflightBufs] using hsent
  | sleep f hpc hlt => exact ⟨pre, hsent, hpre⟩
  | ready f hpc hge =>
    refine ⟨pre, ?_, hpre⟩
    rw [hpc] at hsent
    simpa [inflightBufs] using hsent
  | prepFail f e d hpc hD => simp [mock] at hD
  | prepOk f d hpc hD =>
    refine ⟨pre, ?_, fun hr => by simp at hr⟩
    rw [hpc] at hsent
    show sent (s.log ++ [Event.prepare none]) = _
    rw [sent_append, hsent]
    simp [sent, inflightBufs]
  | xferOk f r d hpc hb0 hD =>
    refine ⟨pre, ?_, hpre⟩
    rw [hpc] at hsent
    show sent (s.log ++ [Event.writei _ _ _]) = _
    rw [sent_append, hsent]
    simp [sent, inflightBufs]
  | xferFail f e d hpc hb0 hD => simp [mock] at hD
  | give f err hpc hl =>
    refine ⟨pre ++ [f.buf], ?_, ?_⟩
    · rw [hpc] at hsent
      show sent (s.log ++ [Event.freed f.idx]) = _
      rw [sent_append, hsent]
      simp [sent, inflightBufs]
    · intro hr b hb
      have hr2 : s.running = false := hr
      rcases List.mem_append.mp hb with hb | hb
      · exact hpre hr2 b hb
      · have hbf : b = f.buf := by simpa using hb
        have h0 := (hC.1 hr2).2.2 f err hpc
        have hle := hret f err hpc
        rw [hbf]
        exact List.length_eq_zero.mp (by omega)

theorem FlowInv_Step (bpf : Nat) (s : alsaWriter (List Byte)) (a : Act)
    (s1 : alsaWriter (List Byte)) (hP : FlowInv bpf s) (hfit : fitsAt s a = true)
    (h : Step (mock bpf) s a s1) : FlowInv bpf s1 :=
  ⟨DataInv_Step bpf s a s1 hP.1 hfit h,
    AlignInv_Step (mock bpf) (Honest_mock bpf) bpf s a s1 hP.2.1 h,
    PreInv_Step (mock bpf) s a s1 hP.2.2.1 h,
    ColdInv_Step bpf s a s1 hP.2.2.2.1 h,
    ListInv_Step bpf s a s1 hP.1 hP.2.2.2.1 hP.2.2.2.2 h⟩

theorem FlowInv_construct (c : Config) (f : Nat) :
    FlowInv (bytesPerFrameOf c) (construct c f []) := by
  refine ⟨DataInv_construct c f, by simp [AlignInv, construct],
    by simp [PreInv, construct, queuedCount], ?_, ?_⟩
  · simp [ColdInv, construct]
  · exact ⟨[], by simp [construct, sent, inflightBufs], by simp⟩

theorem FlowInv_exec (c : Config) (f : Nat) (as : List Act) (s : alsaWriter (List Byte))
    (h : exec (mock (bytesPerFrameOf c)) (construct c f []) as = some s)
    (hfit : Fits (mock (bytesPerFrameOf c)) (construct c f []) as = true) :
    FlowInv (bytesPerFrameOf c) s :=
  exec_invariant_fits (mock (bytesPerFrameOf c)) (FlowInv (bytesPerFrameOf c))
    (fun s a s1 hP hf hs => FlowInv_Step _ s a s1 hP hf (Step_of_step _ s a s1 hs))
    as _ s (FlowInv_construct c f) hfit h

theorem prerollOK_append_empty (pre l : List (List Byte)) (h : ∀ b ∈ pre, b = []) :
    prerollOK (pre ++ l) = prerollOK l := by
  induction pre with
  | nil => rfl
  | cons b bs ih =>
    have hb : b = [] := h b (List.mem_cons_self _ _)
    subst hb
    simp only [List.cons_append, prerollOK, if_true]
    exact ih (fun x hx => h x (List.mem_cons_of_mem _ hx))

theorem work_lt_of_PoolInv {σ : Type} (s : alsaWriter σ) (hP : PoolInv s) (i : Nat)
    (hi : i ∈ s.work) : i < s.buf.length := by
  obtain ⟨hb, _, hc⟩ := hP
  rw [hb]
  by_contra hge
  have := hc i
  rw [if_neg hge] at this
  have h1 : s.work.count i = 0 := by omega
  exact List.count_eq_zero.mp h1 hi

theorem drain_step (bpf : Nat) (hb1 : 1 ≤ bpf) (hbm : bpf ≤ max) (s : alsaWriter (List Byte))
    (hF : FlowInv bpf s) (hal : ∀ b ∈ sent s.log, bpf ∣ b.length)
    (hpre : prerollOK (sent s.log) = true) (hne : ¬ (s.pc = Pc.idle ∧ s.work = [])) :
    ∃ s1, thread_step (mock bpf) s = some s1 ∧ todo s1 < todo s ∧
      sent s1.log = sent s.log := by
  obtain ⟨hData, hAlign, hPre, hCold, pre, hsent, hempty⟩ := hF
  obtain ⟨hPool, hb, _, _, _⟩ := hData
  cases hpc : s.pc with
  | idle =>
    cases hw : s.work with
    | nil => exact absurd ⟨hpc, hw⟩ hne
    | cons i rest0 =>
      have hi : i < s.buf.length := work_lt_of_PoolInv s hPool i (by simp [hw])
      refine ⟨_, step_of_Step (mock bpf) s Act.thread _ (Step.recv i rest0 hpc hw hi), ?_, rfl⟩
      simp only [todo, hw, hpc, pcTodo, List.map_cons, List.sum_cons]
      omega
  | ret f err =>
    have hl : s.done.length < s.buf.length := by
      have h1 := hPool.2.1
      rw [hpc] at h1
      simp only [inflight, List.length_singleton] at h1
      rw [hPool.1]
      omega
    refine ⟨_, step_of_Step (mock bpf) s Act.thread _ (Step.give f err hpc hl), ?_, ?_⟩
    · simp only [todo, hpc, pcTodo]
      omega
    · show sent (s.log ++ [Event.freed f.idx]) = _
      rw [sent_append]
      simp [sent]
  | loop l f =>
    have hmem : f.buf ∈ sent s.log := by
      rw [hsent, hpc]
      simp [inflightBufs]
    have hdl : bpf ∣ f.buf.length := hal _ hmem
    obtain ⟨hdi, hle⟩ := hAlign.2.1 l f hpc
    cases l with
    | head =>
      by_cases hlt : f.i < f.buf.length
      · refine ⟨_, step_of_Step (mock bpf) s Act.thread _ (Step.head f hpc hlt), ?_, ?_⟩
        · cases hrun : s.running <;> simp only [todo, hpc, pcTodo, hrun] <;> simp [pcTodo]
        · show sent (s.log ++ [Event.delay]) = _
          rw [sent_append]
          simp [sent]
      · refine ⟨_, step_of_Step (mock bpf) s Act.thread _ (Step.leave f hpc hlt), ?_, rfl⟩
        simp only [todo, hpc, pcTodo]
        omega
    | wait =>
      have hrun : s.running = false := hPre.1 f hpc
      have hi0 : f.i = 0 := (hCold.1 hrun).2.1 _ f hpc
      have hlt : f.i < f.buf.length := hCold.2.2 _ f hpc (by simp)
      have hnil : f.buf ≠ [] := by
        intro h0
        rw [h0] at hlt
        simp at hlt
      have hw : buffers / 2 ≤ s.work.length := by
        rw [hsent, prerollOK_append_empty _ _ (hempty hrun), hpc] at hpre
        simpa [inflightBufs, prerollOK, hnil] using hpre
      refine ⟨_, step_of_Step (mock bpf) s Act.thread _ (Step.ready f hpc (by omega)), ?_, rfl⟩
      simp only [todo, hpc, pcTodo]
      omega
    | prep =>
      refine ⟨_, step_of_Step (mock bpf) s Act.thread _
        (Step.prepOk f s.dev hpc (by simp [mock])), ?_, ?_⟩
      · simp only [todo, hpc, pcTodo]
        omega
      · show sent (s.log ++ [Event.prepare none]) = _
        rw [sent_append]
        simp [sent]
    | xfer =>
      have hlt : f.i < f.buf.length := hCold.2.2 _ f hpc (by simp)
      have hfr := framesAt_pos bpf f hb1 hbm hlt hdi hdl
      have hk1 : framesAt bpf f * bpf ≤ min (f.buf.length - f.i) max := Nat.div_mul_le_self _ _
      have hk2 : min (f.buf.length - f.i) max ≤ f.buf.length - f.i := Nat.min_le_left _ _
      have hk3 : 1 ≤ framesAt bpf f * bpf := Nat.mul_pos hfr hb1
      refine ⟨_, step_of_Step (mock bpf) s Act.thread _
        (Step.xferOk f (framesAt bpf f)
          (s.dev ++ (f.buf.drop f.i).take (framesAt bpf f * bpf)) hpc (by omega)
          (by simp [mock, hb])), ?_, ?_⟩
      · simp only [todo, hpc, pcTodo, hb]
        omega
      · show sent (s.log ++ [Event.writei _ _ _]) = _
        rw [sent_append]
        simp [sent]

theorem drain (bpf : Nat) (hb1 : 1 ≤ bpf) (hbm : bpf ≤ max) :
    ∀ (m : Nat) (s : alsaWriter (List Byte)), FlowInv bpf s →
      (∀ b ∈ sent s.log, bpf ∣ b.length) → prerollOK (sent s.log) = true → todo s ≤ m →
      ∃ n s1, threadRun (mock bpf) n s = some s1 ∧ s1.pc = Pc.idle ∧ s1.work = [] ∧
        FlowInv bpf s1 ∧ sent s1.log = sent s.log := by
  intro m
  induction m with
  | zero =>
    intro s hF hal hpre hm
    by_cases hfin : s.pc = Pc.idle ∧ s.work = []
    · exact ⟨0, s, rfl, hfin.1, hfin.2, hF, rfl⟩
    · obtain ⟨s1, _, hlt, _⟩ := drain_step bpf hb1 hbm s hF hal hpre hfin
      omega
  | succ m ih =>
    intro s hF hal hpre hm
    by_cases hfin : s.pc = Pc.idle ∧ s.work = []
    · exact ⟨0, s, rfl, hfin.1, hfin.2, hF, rfl⟩
    · obtain ⟨s1, hs1, hlt, hsent⟩ := drain_step bpf hb1 hbm s hF hal hpre hfin
      have hF1 : FlowInv bpf s1 :=
        FlowInv_Step bpf s Act.thread s1 hF rfl (Step_of_step _ s Act.thread s1 hs1)
      obtain ⟨n, s2, hn, hpc2, hw2, hF2, hsent2⟩ := ih s1 hF1 (by rw [hsent]; exact hal)
        (by rw [hsent]; exact hpre) (by omega)
      refine ⟨n + 1, s2, ?_, hpc2, hw2, hF2, hsent2.trans hsent⟩
      rw [threadRun_succ, hs1]
      exact hn

/-! ## The properties of the writer -/

/-- C1 (amended): on the recording device (every prepare succeeds, every transfer succeeds and
reports the frame count requested), in every state of every interleaving in which no `Write`
passes fewer bytes than its pooled slot already has:
the bytes the device has received, followed by what is left of the buffer in flight and by the
queued buffers in queue order, are exactly the slices sent to the ready queue, concatenated in
the order of the sends (for one caller, `b1 ++ b2 ++ ...` in call order), so the device has
the first bytes of that concatenation, unmodified, nothing added, nothing skipped;
a buffer at the loop test whose length is a multiple of `bytesPerFrame` (from 1 to 176400) is
transferred to its end in finitely many steps of the writer task, `write` returning
`(len(buf), nil)`, when the writer is running or `buffers/2` indices are queued, and the
writer is running afterwards unless nothing was left to transfer;
and when every slice sent has a length that is a multiple of `bytesPerFrame` and either all of
them are empty or at least `buffers/2` follow the first non-empty one, the writer task, in
finitely many steps, empties the ready queue and the device has received exactly the
concatenation of all the slices sent. -/
theorem device_receives_sent_bytes (c : Config) (fd : Nat) (as : List Act)
    (s : alsaWriter (List Byte))
    (h : exec (mock (bytesPerFrameOf c)) (construct c fd []) as = some s)
    (hfit : Fits (mock (bytesPerFrameOf c)) (construct c fd []) as = true) :
    s.dev ++ rest s.pc ++ queuedBytes s = (sent s.log).flatten ∧
    s.dev <+: (sent s.log).flatten ∧
    (∀ f, s.pc = Pc.loop Loc.head f → 1 ≤ bytesPerFrameOf c → bytesPerFrameOf c ≤ max →
      bytesPerFrameOf c ∣ f.buf.length → (s.running = true ∨ buffers / 2 ≤ s.work.length) →
      ∃ n s1, threadRun (mock (bytesPerFrameOf c)) n s = some s1 ∧
        s1.pc = Pc.ret { f with i := f.buf.length } none ∧
        s1.dev = s.dev ++ rest s.pc ∧
        (s.running = true ∨ f.i < f.buf.length → s1.running = true)) ∧
    (1 ≤ bytesPerFrameOf c → bytesPerFrameOf c ≤ max →
      (∀ b ∈ sent s.log, bytesPerFrameOf c ∣ b.length) → prerollOK (sent s.log) = true →
      ∃ n s1, threadRun (mock (bytesPerFrameOf c)) n s = some s1 ∧
        s1.pc = Pc.idle ∧ s1.work = [] ∧ s1.dev = (sent s.log).flatten) := by
  obtain ⟨_, hb, _, _, hdata⟩ := DataInv_exec c fd as s h hfit
  obtain ⟨_, hal, _⟩ := AlignInv_exec _ (Honest_mock _) c fd [] as s h
  refine ⟨hdata, ⟨rest s.pc ++ queuedBytes s, by rw [← List.append_assoc]; exact hdata⟩,
    ?_, ?_⟩
  · intro f hpc hb1 hbm hdl hgo
    obtain ⟨hdi, hle⟩ := hal _ f hpc
    have hrest : rest s.pc = f.buf.drop f.i := by rw [hpc]; rfl
    rw [hrest]
    by_cases hlt : f.i < f.buf.length
    · cases hrun : s.running with
      | true =>
        obtain ⟨n, s1, h1, h2, h3, h4⟩ := run_buffer_running _ hb1 hbm _ s f le_rfl hpc hb
          hrun hdi hdl hle
        exact ⟨n, s1, h1, h2, h3, fun _ => h4⟩
      | false =>
        have hw : buffers / 2 ≤ s.work.length := by
          rcases hgo with hgo | hgo
          · simp [hrun] at hgo
          · exact hgo
        have hk1 : framesAt (bytesPerFrameOf c) f * bytesPerFrameOf c ≤
            min (f.buf.length - f.i) max := Nat.div_mul_le_self _ _
        have hk2 : min (f.buf.length - f.i) max ≤ f.buf.length - f.i := Nat.min_le_left _ _
        obtain ⟨s2, hs2, hpc2, hdev2, hrun2, hb2⟩ := run_preroll _ s f hpc hlt hrun hw hb hb1
        obtain ⟨n, s1, h1, h2, h3, h4⟩ := run_buffer_running _ hb1 hbm _ s2
          { f with i := f.i + framesAt (bytesPerFrameOf c) f * bytesPerFrameOf c } le_rfl hpc2
          hb2 hrun2 (Dvd.dvd.add hdi (dvd_mul_left _ _)) hdl (by simp only; omega)
        refine ⟨4 + n, s1, ?_, h2, ?_, fun _ => h4⟩
        · rw [threadRun_add, hs2]
          exact h1
        · rw [h3, hdev2]
          simp only [List.append_assoc, List.append_cancel_left_eq]
          show _ ++ List.drop (f.i + framesAt (bytesPerFrameOf c) f * bytesPerFrameOf c) f.buf =
            _
          rw [← List.drop_drop]
          exact List.take_append_drop _ _
    · obtain ⟨n, s1, h1, h2, h3, h4⟩ := run_buffer_end _ s f hpc hle hlt
      refine ⟨n, s1, h1, h2, h3, ?_⟩
      intro hor
      rcases hor with hr | hr
      · exact h4.trans hr
      · exact absurd hr hlt
  · intro hb1 hbm halign hpre
    have hF := FlowInv_exec c fd as s h hfit
    obtain ⟨n, s1, hn, hpc1, hw1, hF1, hsent1⟩ :=
      drain _ hb1 hbm (todo s) s hF halign hpre le_rfl
    refine ⟨n, s1, hn, hpc1, hw1, ?_⟩
    have hd1 := hF1.1.2.2.2.2
    rw [hpc1, hsent1] at hd1
    simpa [rest, queuedBytes, hw1] using hd1

/-- Witness of C1: five calls `Write([1, 2, 3, 4])` on a stereo writer and the receive of the
writer task; the writer task then delivers the twenty bytes. -/
theorem device_receives_sent_bytes_witness :
    ∃ s, exec (mock (bytesPerFrameOf stereo)) (construct stereo 3 []) prerollRun = some s ∧
      Fits (mock (bytesPerFrameOf stereo)) (construct stereo 3 []) prerollRun = true ∧
      s.pc = Pc.loop Loc.head ⟨0, [1, 2, 3, 4], 0⟩ ∧
      sent s.log = [[1, 2, 3, 4], [1, 2, 3, 4], [1, 2, 3, 4], [1, 2, 3, 4], [1, 2, 3, 4]] ∧
      s.dev ++ rest s.pc ++ queuedBytes s = (sent s.log).flatten ∧
      s.dev <+: (sent s.log).flatten ∧
      (∃ n s1, threadRun (mock (bytesPerFrameOf stereo)) n s = some s1 ∧
        s1.pc = Pc.ret ⟨0, [1, 2, 3, 4], 4⟩ none ∧
        s1.dev = s.dev ++ rest s.pc ∧
        (s.running = true ∨ 0 < 4 → s1.running = true)) ∧
      ∃ n s1, threadRun (mock (bytesPerFrameOf stereo)) n s = some s1 ∧
        s1.pc = Pc.idle ∧ s1.work = [] ∧ s1.dev = (sent s.log).flatten := by
  refine ⟨_, rfl, by decide, rfl, rfl, ?_⟩
  have hall := device_receives_sent_bytes stereo 3 prerollRun _ rfl (by decide)
  exact ⟨hall.1, hall.2.1,
    hall.2.2.1 ⟨0, [1, 2, 3, 4], 0⟩ rfl (by decide) (by decide) (by decide)
      (Or.inr (by decide)),
    hall.2.2.2 (by decide) (by decide) (by decide) (by decide)⟩

/-- Counterexample to C1: on a stereo writer (four bytes a frame) and the recording device,
after the calls `Write` of a five-byte slice and of four more slices the writer task transfers
the first four bytes and then, however many steps it takes, never more: the device never has
the concatenation.  And after the single call `Write([1, 2, 3, 4])` the writer task waits in
the pre-roll for ever: the device never has the four bytes. -/
theorem unaligned_buffer_never_delivered :
    ((exec (mock 4) (construct stereo 3 []) unalignedRun).bind
        (threadRun (mock 4) 9)).map (fun s => s.dev) = some [1, 2, 3, 4] ∧
    (¬ ∃ n s, (exec (mock 4) (construct stereo 3 []) unalignedRun).bind
        (threadRun (mock 4) n) = some s ∧
      s.dev = [1, 2, 3, 4, 5, 6, 7, 8, 9, 6, 7, 8, 9, 6, 7, 8, 9, 6, 7, 8, 9]) ∧
    ¬ ∃ n s, (exec (mock 4) (construct stereo 3 []) (W 0 [1, 2, 3, 4])).bind
        (threadRun (mock 4) n) = some s ∧ s.dev = [1, 2, 3, 4] := by
  refine ⟨by decide, ?_, ?_⟩
  · rintro ⟨n, s, hrun, hdev⟩
    obtain ⟨q, hq, hStuck⟩ : ∃ q, exec (mock 4) (construct stereo 3 []) unalignedRun = some q ∧
        Stuck q := by
      refine ⟨_, rfl, ?_⟩
      refine ⟨by decide, by decide, Or.inl ⟨rfl, rfl, by decide, by decide, _, rfl⟩⟩
    rw [hq] at hrun
    have hS := threadRun_invariant (mock 4) Stuck Stuck_step n q s hStuck hrun
    have := hS.2.1
    rw [hdev] at this
    simp at this
  · rintro ⟨n, s, hrun, hdev⟩
    obtain ⟨q, hq, hSt⟩ : ∃ q, exec (mock 4) (construct stereo 3 []) (W 0 [1, 2, 3, 4]) =
        some q ∧ Starved q := by
      refine ⟨_, rfl, rfl, rfl, by decide, Or.inl ⟨rfl, ?_⟩⟩
      intro j hj
      have hj0 : j = 0 := by simpa [construct] using hj
      subst hj0
      decide
    rw [hq] at hrun
    have hS := threadRun_invariant (mock 4) Starved (Starved_step 4) n q s hSt hrun
    rw [hS.1] at hdev
    simp at hdev

/-- C2 (the code at the failing input): `Write([9, 9])` on a slot that holds `[1, 2, 3, 4]`
from an earlier call leaves the slot at length 4 with the bytes `[9, 9, 3, 4]`; and on a mono
writer the ninth call `Write([9, 9])`, handed slot 0 again, makes the device receive
`9, 9, 3, 4`: two bytes of the first call follow the two bytes passed. -/
theorem Write_shorter_data_keeps_stale_tail :
    fill ⟨[1, 2, 3, 4], 4⟩ [9, 9] = ⟨[9, 9, 3, 4], 4⟩ ∧
    (exec (mock 2) (construct mono 3 []) nineWrites).map (fun s => s.dev) =
      some ([1, 2, 3, 4, 1, 2, 3, 4, 1, 2, 3, 4, 1, 2, 3, 4, 1, 2, 3, 4, 1, 2, 3, 4,
        1, 2, 3, 4, 1, 2, 3, 4, 9, 9, 3, 4]) := by
  decide

/-- C3 (amended): in every state reachable from construction through any interleaving of
steps of `Write` and of the writer task, each index below `buffers` is at exactly one of four
places, once: the free queue `done`, the ready queue `work`, in flight at the writer task, or
with a call of `Write` between its receive (line 139) and its send (line 147); no other number
is at any of them.  Whenever no call of `Write` is between its receive and its send, each
index is at exactly one of the first three. -/
theorem pool_indices_partition {σ : Type} (D : Device σ) (c : Config) (fd : Nat) (dev : σ)
    (as : List Act)
    (s : alsaWriter σ) (h : exec D (construct c fd dev) as = some s) :
    (∀ i, i < buffers →
      s.done.count i + s.work.count i + (inflight s.pc).count i + (held s).count i = 1) ∧
    (∀ i, buffers ≤ i → i ∉ s.done ∧ i ∉ s.work ∧ i ∉ inflight s.pc ∧ i ∉ held s) ∧
    (s.calls = [] → ∀ i, i < buffers →
      s.done.count i + s.work.count i + (inflight s.pc).count i = 1) := by
  obtain ⟨_, _, hc⟩ := PoolInv_exec D c fd dev as s h
  refine ⟨?_, ?_, ?_⟩
  · intro i hi
    simpa [hi] using hc i
  · intro i hi
    have := hc i
    rw [if_neg (by omega)] at this
    have h1 : s.done.count i = 0 := by omega
    have h2 : s.work.count i = 0 := by omega
    have h3 : (inflight s.pc).count i = 0 := by omega
    have h4 : (held s).count i = 0 := by omega
    exact ⟨List.count_eq_zero.mp h1, List.count_eq_zero.mp h2, List.count_eq_zero.mp h3,
      List.count_eq_zero.mp h4⟩
  · intro hcalls i hi
    have := hc i
    simpa [hi, held, hcalls] using this

/-- Witness of C3: one call `Write([1, 2, 3, 4])` and the receive of the writer task. -/
theorem pool_indices_partition_witness :
    ∃ s, exec (mock 4) (construct stereo 3 []) (W 0 [1, 2, 3, 4] ++ T 1) = some s ∧
      (∀ i, i < buffers →
        s.done.count i + s.work.count i + (inflight s.pc).count i + (held s).count i = 1) ∧
      (∀ i, buffers ≤ i → i ∉ s.done ∧ i ∉ s.work ∧ i ∉ inflight s.pc ∧ i ∉ held s) ∧
      (s.calls = [] → ∀ i, i < buffers →
        s.done.count i + s.work.count i + (inflight s.pc).count i = 1) := by
  refine ⟨_, rfl, ?_⟩
  exact pool_indices_partition (mock 4) stereo 3 [] (W 0 [1, 2, 3, 4] ++ T 1) _ rfl

/-- Counterexample to C3: after the receive of the first call of `Write` (line 139) and
before its send (line 147), index 0 is in the free queue, in the ready queue and in flight at
the writer task zero times in all: it is with the caller. -/
theorem index_with_caller_in_no_queue :
    (exec (mock 4) (construct stereo 3 []) [Act.writeBegin [1, 2, 3, 4]]).map
      (fun s => (s.done.count 0 + s.work.count 0 + (inflight s.pc).count 0, held s)) =
      some (0, [0]) := by
  decide

/-- C4 (amended): for a negotiated maximum buffer size `B` read from an interval field of `w`
bits (`2 ≤ w`, and the frame-count type at least as wide), the software-parameter request of
`NewAlsaWriter` has `start_threshold = B - 4` when `4 ≤ B` and `stop_threshold = 2 * B` when
`2 * B < 2 ^ w`; for `B < 4` the start threshold wraps to `2 ^ w + B - 4`, and for
`2 ^ w ≤ 2 * B` the stop threshold wraps to `2 * B - 2 ^ w`.  For every `B`: `avail_min = 1`,
`xfer_align = 256`, both silence fields zero. -/
theorem sw_params_thresholds {σ : Type} (abi : Abi) (k : Kernel) (dev : σ) (c : Config) (f B : Nat)
    (hopen : k.sysOpen = Except.ok f) (hhw : k.hw_params (hwRequest c) = Except.ok B)
    (hB : B < 2 ^ abi.intervalBits) (hw2 : 2 ≤ abi.intervalBits)
    (hw : abi.intervalBits ≤ abi.uframesBits) :
    ∃ sp, swRequest (NewAlsaWriter abi k dev c).calls = some sp ∧
      (4 ≤ B → sp.start_threshold = B - 4) ∧
      (B < 4 → sp.start_threshold = 2 ^ abi.intervalBits + B - 4) ∧
      (2 * B < 2 ^ abi.intervalBits → sp.stop_threshold = 2 * B) ∧
      (2 ^ abi.intervalBits ≤ 2 * B → sp.stop_threshold = 2 * B - 2 ^ abi.intervalBits) ∧
      sp.avail_min = 1 ∧ sp.xfer_align = 256 ∧ sp.silence_size = 0 ∧
      sp.silence_threshold = 0 := by
  have hpow : (2 : Nat) ^ abi.intervalBits ≤ 2 ^ abi.uframesBits :=
    Nat.pow_le_pow_right (by norm_num) hw
  have h4 : (4 : Nat) ≤ 2 ^ abi.intervalBits := by
    calc (4 : Nat) = 2 ^ 2 := by norm_num
      _ ≤ 2 ^ abi.intervalBits := Nat.pow_le_pow_right (by norm_num) hw2
  refine ⟨sparamsOf abi B, ?_, ?_, ?_, ?_, ?_, rfl, rfl, rfl, rfl⟩
  · unfold NewAlsaWriter
    simp only [hopen, hhw]
    cases hsw : k.sw_params (sparamsOf abi B) <;> simp [swRequest]
  · intro h
    have e : ((B : Int) - 4) = ((B - 4 : Nat) : Int) := by omega
    show wrap abi.uframesBits (wrap abi.intervalBits ((B : Int) - 4)) = B - 4
    rw [e, wrap_of_lt abi.intervalBits (B - 4) (by omega), wrap_of_lt abi.uframesBits (B - 4) (by omega)]
  · intro h
    have e : ((B : Int) - 4) = ((2 ^ abi.intervalBits + B - 4 : Nat) : Int) - 2 ^ abi.intervalBits := by
      push_cast [Nat.cast_sub (show 4 ≤ 2 ^ abi.intervalBits + B by omega)]
      ring
    show wrap abi.uframesBits (wrap abi.intervalBits ((B : Int) - 4)) = _
    rw [e, wrap_sub_pow, wrap_of_lt abi.intervalBits _ (by omega), wrap_of_lt abi.uframesBits _ (by omega)]
  · intro h
    have e : ((B : Int) * 2) = ((2 * B : Nat) : Int) := by push_cast; ring
    show wrap abi.uframesBits (wrap abi.intervalBits ((B : Int) * 2)) = _
    rw [e, wrap_of_lt abi.intervalBits _ h, wrap_of_lt abi.uframesBits _ (by omega)]
  · intro h
    have e : ((B : Int) * 2) = ((2 * B - 2 ^ abi.intervalBits : Nat) : Int) + 2 ^ abi.intervalBits := by
      push_cast [Nat.cast_sub h]
      ring
    show wrap abi.uframesBits (wrap abi.intervalBits ((B : Int) * 2)) = _
    rw [e, wrap_add_pow, wrap_of_lt abi.intervalBits _ (by omega), wrap_of_lt abi.uframesBits _ (by omega)]

/-- Witness of C4: a stereo writer, 32-bit interval fields, a buffer of 4096 frames. -/
theorem sw_params_thresholds_witness :
    ∃ sp, swRequest (NewAlsaWriter abi64 (accepting 4096) () stereo).calls = some sp ∧
      (4 ≤ 4096 → sp.start_threshold = 4096 - 4) ∧
      (4096 < 4 → sp.start_threshold = 2 ^ abi64.intervalBits + 4096 - 4) ∧
      (2 * 4096 < 2 ^ abi64.intervalBits → sp.stop_threshold = 2 * 4096) ∧
      (2 ^ abi64.intervalBits ≤ 2 * 4096 → sp.stop_threshold = 2 * 4096 - 2 ^ abi64.intervalBits) ∧
      sp.avail_min = 1 ∧ sp.xfer_align = 256 ∧ sp.silence_size = 0 ∧
      sp.silence_threshold = 0 :=
  sw_params_thresholds abi64 (accepting 4096) () stereo 3 4096 rfl rfl (by decide) (by decide) (by decide)

/-- Counterexample to C4: with 32-bit interval fields a negotiated buffer size of 0 frames
gives the start threshold 4294967292, not `0 - 4`, and a buffer size of `2 ^ 31` frames gives
the stop threshold 0, not `2 ^ 32`. -/
theorem sw_params_thresholds_wrap :
    (swRequest (NewAlsaWriter abi64 (accepting 0) () stereo).calls).map
        (fun sp => sp.start_threshold) = some 4294967292 ∧
    (swRequest (NewAlsaWriter abi64 (accepting (2 ^ 31)) () stereo).calls).map
        (fun sp => sp.stop_threshold) = some 0 := by
  decide

/-- C5 (amended): when the transfer at offset `i` of a buffer fails, the step leaves the
running flag false and the writer task at the loop test with the same offset `i`; and in every
run from there the device calls issued since, latency queries included, are: first the latency
query of the next pass (line 96), then a prepare, and after a prepare that succeeded a transfer
at the same offset `i` of the same frame count. -/
theorem retry_after_failed_transfer {σ : Type} (D : Device σ) (s : alsaWriter σ) (f : Frame)
    (e : Errno) (d : σ)
    (hpc : s.pc = Pc.loop Loc.xfer f) (hi : f.i < f.buf.length) (hb : s.bytesPerFrame ≠ 0)
    (hD : D.writei s.dev f.buf f.i (framesAt s.bytesPerFrame f) = (Res.fail e, d)) :
    ∃ s1, step D s Act.thread = some s1 ∧ s1.running = false ∧ s1.pc = Pc.loop Loc.head f ∧
      s1.log = s.log ++ [Event.writei f.i (framesAt s.bytesPerFrame f) (Res.fail e)] ∧
      ∀ as s2, exec D s1 as = some s2 →
        ∃ new, s2.log = s1.log ++ new ∧
          RetryShape f.i (framesAt s.bytesPerFrame f) (deviceOps new) := by
  refine ⟨_, step_of_Step D s _ _ (Step.xferFail f e d hpc hb hD), rfl, rfl, rfl, ?_⟩
  intro as s2 h2
  apply RetryShape_of_Retrying
  refine exec_invariant D (Retrying _ s.bytesPerFrame f)
    (fun s a s1 hP hs => Retrying_Step D _ _ f hi s a s1 hP (Step_of_step D s a s1 hs))
    as _ s2 ?_ h2
  exact ⟨rfl, [], by simp, Or.inl ⟨rfl, rfl, rfl⟩⟩

/-- Witness of C5: the first transfer of an eight-byte buffer on a device whose transfers
fail with `EPIPE`. -/
theorem retry_after_failed_transfer_witness :
    ∃ s1, step brokenPipe atTransfer Act.thread = some s1 ∧ s1.running = false ∧
      s1.pc = Pc.loop Loc.head ⟨0, [1, 2, 3, 4, 5, 6, 7, 8], 0⟩ ∧
      s1.log = atTransfer.log ++
        [Event.writei 0 (framesAt atTransfer.bytesPerFrame ⟨0, [1, 2, 3, 4, 5, 6, 7, 8], 0⟩)
          (Res.fail 32)] ∧
      ∀ as s2, exec brokenPipe s1 as = some s2 →
        ∃ new, s2.log = s1.log ++ new ∧
          RetryShape 0 (framesAt atTransfer.bytesPerFrame ⟨0, [1, 2, 3, 4, 5, 6, 7, 8], 0⟩)
            (deviceOps new) :=
  retry_after_failed_transfer brokenPipe atTransfer ⟨0, [1, 2, 3, 4, 5, 6, 7, 8], 0⟩ 32 ()
    rfl (by decide) (by decide) rfl

/-- Counterexample to C5: on a device whose transfers fail, the device call that follows the
failed first transfer of an eight-byte buffer is the latency query of line 96, not a prepare;
the prepare comes after it, and the transfer after the prepare. -/
theorem latency_query_precedes_prepare :
    (exec brokenPipe atTransfer (T 2)).map (fun s => s.log) =
      some [Event.writei 0 2 (Res.fail 32), Event.delay] ∧
    (exec brokenPipe atTransfer (T 5)).map (fun s => s.log) =
      some [Event.writei 0 2 (Res.fail 32), Event.delay, Event.prepare none,
        Event.writei 0 2 (Res.fail 32)] := by
  decide

/-- C6: `buffers / 2` is 4; in every state reachable from construction, a step that issues a
prepare is taken with the running flag false and at least `buffers / 2` indices in the ready
queue, at least that many having been sent to it by `Write`; and every prepare of the history,
the first included, comes after at least `buffers / 2` sends of `Write` to the ready queue. -/
theorem prepare_only_after_preroll {σ : Type} (D : Device σ) (c : Config) (fd : Nat) (dev : σ)
    (as : List Act)
    (s : alsaWriter σ) (h : exec D (construct c fd dev) as = some s) :
    buffers / 2 = 4 ∧
    (∀ a s1 r, step D s a = some s1 → s1.log = s.log ++ [Event.prepare r] →
      s.running = false ∧ buffers / 2 ≤ s.work.length ∧ buffers / 2 ≤ queuedCount s.log) ∧
    (∀ pre r post, s.log = pre ++ Event.prepare r :: post → buffers / 2 ≤ queuedCount pre) := by
  obtain ⟨hw, hp, hq, hl⟩ := PreInv_exec D c fd dev as s h
  refine ⟨rfl, ?_, hl⟩
  intro a s1 r hs hlog
  have hS := Step_of_step D s a s1 hs
  cases hS with
  | writeBegin data i rest hd hi => simp at hlog
  | writeEnd i data hm hw2 => simp at hlog
  | recv i rest hpc hw2 hi => simp at hlog
  | head f hpc hlt => simp at hlog
  | leave f hpc hge => simp at hlog
  | sleep f hpc hlt => simp at hlog
  | ready f hpc hge => simp at hlog
  | prepFail f e d hpc hD => exact ⟨(hp f hpc).1, (hp f hpc).2, le_trans (hp f hpc).2 hq⟩
  | prepOk f d hpc hD => exact ⟨(hp f hpc).1, (hp f hpc).2, le_trans (hp f hpc).2 hq⟩
  | xferOk f r d hpc hb hD => simp at hlog
  | xferFail f e d hpc hb hD => simp at hlog
  | give f err hpc hl2 => simp at hlog

/-- Witness of C6: five calls of `Write`, then the writer task up to its first prepare. -/
theorem prepare_only_after_preroll_witness :
    ∃ s, exec (mock 4) (construct stereo 3 []) (prerollRun ++ T 2) = some s ∧
      s.pc = Pc.loop Loc.prep ⟨0, [1, 2, 3, 4], 0⟩ ∧
      buffers / 2 = 4 ∧
      (∀ a s1 r, step (mock 4) s a = some s1 → s1.log = s.log ++ [Event.prepare r] →
        s.running = false ∧ buffers / 2 ≤ s.work.length ∧ buffers / 2 ≤ queuedCount s.log) ∧
      (∀ pre r post, s.log = pre ++ Event.prepare r :: post →
        buffers / 2 ≤ queuedCount pre) := by
  refine ⟨_, rfl, rfl, ?_⟩
  exact prepare_only_after_preroll (mock 4) stereo 3 [] (prerollRun ++ T 2) _ rfl

/-- C7: `NewAlsaWriter` returns a nil writer exactly when it returns an error.  When the open
fails it returns that error, issues no ioctl, closes nothing and creates neither queues nor
the writer task; when the hardware-parameter ioctl fails it returns that error, does not issue
the software-parameter ioctl, closes the descriptor once and creates nothing; when the
software-parameter ioctl fails it returns that error, closes the descriptor once and creates
nothing; when all three succeed it returns the writer and no error, closes nothing, and has
made the two queues and started the writer task once. -/
theorem NewAlsaWriter_failure_handling {σ : Type} (abi : Abi) (k : Kernel) (dev : σ) (c : Config) :
    ((NewAlsaWriter abi k dev c).writer.isNone = (NewAlsaWriter abi k dev c).err.isSome) ∧
    (∀ e, k.sysOpen = Except.error e →
      (NewAlsaWriter abi k dev c).writer.isNone = true ∧
      (NewAlsaWriter abi k dev c).err = some e ∧
      triedHw (NewAlsaWriter abi k dev c).calls = false ∧
      triedSw (NewAlsaWriter abi k dev c).calls = false ∧
      closes (NewAlsaWriter abi k dev c).calls = 0 ∧
      queuesMade (NewAlsaWriter abi k dev c).calls = 0 ∧
      (NewAlsaWriter abi k dev c).calls.count Call.go_thread = 0) ∧
    (∀ f e, k.sysOpen = Except.ok f → k.hw_params (hwRequest c) = Except.error e →
      (NewAlsaWriter abi k dev c).writer.isNone = true ∧
      (NewAlsaWriter abi k dev c).err = some e ∧
      triedSw (NewAlsaWriter abi k dev c).calls = false ∧
      closes (NewAlsaWriter abi k dev c).calls = 1 ∧
      (NewAlsaWriter abi k dev c).calls.count (Call.close f) = 1 ∧
      queuesMade (NewAlsaWriter abi k dev c).calls = 0 ∧
      (NewAlsaWriter abi k dev c).calls.count Call.go_thread = 0) ∧
    (∀ f B e, k.sysOpen = Except.ok f → k.hw_params (hwRequest c) = Except.ok B →
      k.sw_params (sparamsOf abi B) = some e →
      (NewAlsaWriter abi k dev c).writer.isNone = true ∧
      (NewAlsaWriter abi k dev c).err = some e ∧
      closes (NewAlsaWriter abi k dev c).calls = 1 ∧
      (NewAlsaWriter abi k dev c).calls.count (Call.close f) = 1 ∧
      queuesMade (NewAlsaWriter abi k dev c).calls = 0 ∧
      (NewAlsaWriter abi k dev c).calls.count Call.go_thread = 0) ∧
    (∀ f B, k.sysOpen = Except.ok f → k.hw_params (hwRequest c) = Except.ok B →
      k.sw_params (sparamsOf abi B) = none →
      (NewAlsaWriter abi k dev c).writer.isSome = true ∧
      (NewAlsaWriter abi k dev c).err = none ∧
      triedHw (NewAlsaWriter abi k dev c).calls = true ∧
      triedSw (NewAlsaWriter abi k dev c).calls = true ∧
      closes (NewAlsaWriter abi k dev c).calls = 0 ∧
      queuesMade (NewAlsaWriter abi k dev c).calls = 2 ∧
      (NewAlsaWriter abi k dev c).calls.count Call.go_thread = 1) := by
  refine ⟨?_, ?_, ?_, ?_, ?_⟩
  · cases h1 : k.sysOpen with
    | error e => simp [NewAlsaWriter, h1]
    | ok f =>
      cases h2 : k.hw_params (hwRequest c) with
      | error e => simp [NewAlsaWriter, h1, h2]
      | ok B => cases h3 : k.sw_params (sparamsOf abi B) <;> simp [NewAlsaWriter, h1, h2, h3]
  · intro e h1
    simp [NewAlsaWriter, h1, triedHw, triedSw, closes, queuesMade]
  · intro f e h1 h2
    simp [NewAlsaWriter, h1, h2, triedSw, closes, queuesMade]
  · intro f B e h1 h2 h3
    simp [NewAlsaWriter, h1, h2, h3, closes, queuesMade]
  · intro f B h1 h2 h3
    simp [NewAlsaWriter, h1, h2, h3, triedHw, triedSw, closes, queuesMade]

/-- C8: from the freshly constructed writer eight calls of `Write` complete, and then, nothing
having been sent back to the free queue, the free queue is empty and a ninth call cannot
start.  In every reachable state in which nothing has been sent back yet, the calls completed
or in progress and the free indices are `buffers` together, and once `buffers` calls have
started no further one can.  In every reachable state the indices accepted by `Write` and not
yet sent back (with a call, in the ready queue, or in flight) are at most `buffers`.  And
right after a step in which the writer task sends an index back, a call of `Write` can
start. -/
theorem Write_backpressure {σ : Type} (D : Device σ) (c : Config) (fd : Nat) (dev : σ)
    (as : List Act)
    (s : alsaWriter σ) (h : exec D (construct c fd dev) as = some s) :
    (∀ data, ∃ s8, exec D (construct c fd dev) (eightWrites data) = some s8 ∧
      queuedCount s8.log = buffers ∧ freedCount s8.log = 0 ∧ s8.done = [] ∧
      ∀ data9, step D s8 (Act.writeBegin data9) = none) ∧
    (freedCount s.log = 0 →
      queuedCount s.log + s.calls.length + s.done.length = buffers ∧
      (queuedCount s.log + s.calls.length = buffers →
        ∀ data, step D s (Act.writeBegin data) = none)) ∧
    s.calls.length + s.work.length + (inflight s.pc).length + s.done.length = buffers ∧
    s.calls.length + s.work.length + (inflight s.pc).length ≤ buffers ∧
    (∀ s1 i, step D s Act.thread = some s1 → s1.log = s.log ++ [Event.freed i] →
      ∀ data, (step D s1 (Act.writeBegin data)).isSome = true) := by
  have hP := PoolInv_exec D c fd dev as s h
  have hC := CountInv_exec D c fd dev as s h
  refine ⟨?_, ?_, ?_, ?_, ?_⟩
  · intro data
    refine ⟨{ construct c fd dev with
        done := []
        work := [0, 1, 2, 3, 4, 5, 6, 7]
        buf := List.replicate 8 (fill nilSlice data)
        log := [Event.queued 0 data, Event.queued 1 data, Event.queued 2 data,
          Event.queued 3 data, Event.queued 4 data, Event.queued 5 data, Event.queued 6 data,
          Event.queued 7 data] }, ?_, rfl, rfl, rfl, ?_⟩
    · simp [eightWrites, W, exec, step, Write_begin, Write_end, construct, dropCall, buffers,
        List.range, List.range.loop, List.replicate]
    · intro data9
      rfl
  · intro hf
    unfold CountInv at hC
    refine ⟨by omega, ?_⟩
    intro h8 data
    have hd : s.done = [] := List.length_eq_zero.mp (by omega)
    simp [step, Write_begin, hd]
  · have := hP.2.1; omega
  · have := hP.2.1; omega
  · intro s1 i hs hlog data
    have hS := Step_of_step D s _ s1 hs
    have hP1 := PoolInv_Step D s _ s1 hP hS
    cases hd : s1.done with
    | nil =>
      exfalso
      cases hS <;> simp_all
    | cons j rest =>
      have hj : j < s1.buf.length := mem_lt_of_PoolInv s1 hP1 j (by simp [hd])
      simp [step, Write_begin, hd, hj]

/-- Witness of C8: eight calls of `Write`, then the writer task through its first buffer up to
the send of line 132: the free queue is empty and the next step refills it. -/
theorem Write_backpressure_witness :
    ∃ s, exec (mock 4) (construct stereo 3 []) (eightWrites [1, 2, 3, 4] ++ T 6) = some s ∧
      s.pc = Pc.ret ⟨0, [1, 2, 3, 4], 4⟩ none ∧ s.done = [] ∧
      (∀ data, ∃ s8, exec (mock 4) (construct stereo 3 []) (eightWrites data) = some s8 ∧
        queuedCount s8.log = buffers ∧ freedCount s8.log = 0 ∧ s8.done = [] ∧
        ∀ data9, step (mock 4) s8 (Act.writeBegin data9) = none) ∧
      (freedCount s.log = 0 →
        queuedCount s.log + s.calls.length + s.done.length = buffers ∧
        (queuedCount s.log + s.calls.length = buffers →
          ∀ data, step (mock 4) s (Act.writeBegin data) = none)) ∧
      s.calls.length + s.work.length + (inflight s.pc).length + s.done.length = buffers ∧
      s.calls.length + s.work.length + (inflight s.pc).length ≤ buffers ∧
      (∀ s1 i, step (mock 4) s Act.thread = some s1 → s1.log = s.log ++ [Event.freed i] →
        ∀ data, (step (mock 4) s1 (Act.writeBegin data)).isSome = true) := by
  refine ⟨_, rfl, rfl, rfl, ?_⟩
  exact Write_backpressure (mock 4) stereo 3 [] (eightWrites [1, 2, 3, 4] ++ T 6) _ rfl

/-- C9: `max` is 176400; at a transfer with offset `i < len(buf)` and `bytesPerFrame ≥ 1` the
writer task issues one transfer at offset `i` of exactly `min(len(buf) - i, max) /
bytesPerFrame` frames, which cover at most `max` bytes and do not reach past the end of the
buffer; when the device reports `r` frames the offset becomes `i + r * bytesPerFrame`, not
below `i`, and when the transfer fails the offset stays `i`. -/
theorem transfer_chunking {σ : Type} (D : Device σ) (s : alsaWriter σ) (f : Frame)
    (hpc : s.pc = Pc.loop Loc.xfer f) (hi : f.i < f.buf.length) (hb : 1 ≤ s.bytesPerFrame) :
    max = 176400 ∧
    ∃ s1 res, step D s Act.thread = some s1 ∧
      s1.log = s.log ++
        [Event.writei f.i (min (f.buf.length - f.i) max / s.bytesPerFrame) res] ∧
      min (f.buf.length - f.i) max / s.bytesPerFrame * s.bytesPerFrame ≤ max ∧
      f.i + min (f.buf.length - f.i) max / s.bytesPerFrame * s.bytesPerFrame ≤ f.buf.length ∧
      (∀ r, res = Res.ok r →
        s1.pc = Pc.loop Loc.head { f with i := f.i + r * s.bytesPerFrame } ∧
        f.i ≤ f.i + r * s.bytesPerFrame) ∧
      (∀ e, res = Res.fail e → s1.pc = Pc.loop Loc.head f) := by
  refine ⟨rfl, ?_⟩
  have hb0 : s.bytesPerFrame ≠ 0 := by omega
  have h1 : min (f.buf.length - f.i) max / s.bytesPerFrame * s.bytesPerFrame ≤
      min (f.buf.length - f.i) max := Nat.div_mul_le_self _ _
  have h2 : min (f.buf.length - f.i) max ≤ max := Nat.min_le_right _ _
  have h3 : min (f.buf.length - f.i) max ≤ f.buf.length - f.i := Nat.min_le_left _ _
  cases hD : D.writei s.dev f.buf f.i (framesAt s.bytesPerFrame f) with
  | mk res d =>
    cases res with
    | ok r =>
      refine ⟨_, Res.ok r, step_of_Step D s _ _ (Step.xferOk f r d hpc hb0 hD), rfl,
        by omega, by omega, ?_, ?_⟩
      · intro r1 hr
        cases hr
        exact ⟨rfl, Nat.le_add_right _ _⟩
      · intro e he
        cases he
    | fail e =>
      refine ⟨_, Res.fail e, step_of_Step D s _ _ (Step.xferFail f e d hpc hb0 hD), rfl,
        by omega, by omega, ?_, ?_⟩
      · intro r1 hr
        cases hr
      · intro e1 _
        rfl

/-- Witness of C9: the first transfer of a four-byte buffer on a stereo writer. -/
theorem transfer_chunking_witness :
    max = 176400 ∧
    ∃ s1 res, step (mock 4) transferring Act.thread = some s1 ∧
      s1.log = transferring.log ++
        [Event.writei 0 (min (4 - 0) max / transferring.bytesPerFrame) res] ∧
      min (4 - 0) max / transferring.bytesPerFrame * transferring.bytesPerFrame ≤ max ∧
      0 + min (4 - 0) max / transferring.bytesPerFrame * transferring.bytesPerFrame ≤ 4 ∧
      (∀ r, res = Res.ok r →
        s1.pc = Pc.loop Loc.head ⟨0, [1, 2, 3, 4], 0 + r * transferring.bytesPerFrame⟩ ∧
        0 ≤ 0 + r * transferring.bytesPerFrame) ∧
      (∀ e, res = Res.fail e → s1.pc = Pc.loop Loc.head ⟨0, [1, 2, 3, 4], 0⟩) :=
  transfer_chunking (mock 4) transferring ⟨0, [1, 2, 3, 4], 0⟩ rfl (by decide) (by decide)

/-- C10: with a device that never reports more frames than were requested, in every state
reachable from construction, while the writer task is inside `write` on a buffer whose length
is not a multiple of `bytesPerFrame` its offset is a multiple of `bytesPerFrame` and strictly
below the length; and when `write` has returned on such a buffer it returned an error (the
prepare failed) and an offset below the length, never `(len(buf), nil)`. -/
theorem unaligned_write_never_completes {σ : Type} (D : Device σ) (hD : Honest D) (c : Config)
    (fd : Nat) (dev : σ)
    (as : List Act) (s : alsaWriter σ) (h : exec D (construct c fd dev) as = some s) :
    (∀ l f, s.pc = Pc.loop l f → ¬ bytesPerFrameOf c ∣ f.buf.length →
      bytesPerFrameOf c ∣ f.i ∧ f.i < f.buf.length) ∧
    (∀ f err, s.pc = Pc.ret f err → ¬ bytesPerFrameOf c ∣ f.buf.length →
      err ≠ none ∧ f.i < f.buf.length) := by
  obtain ⟨_, hl, hr⟩ := AlignInv_exec D hD c fd dev as s h
  refine ⟨?_, ?_⟩
  · intro l f hf hnd
    have := hl l f hf
    refine ⟨this.1, lt_of_le_of_ne this.2 ?_⟩
    intro heq
    exact hnd (heq ▸ this.1)
  · intro f err hf hnd
    have := hr f err hf
    have hlt : f.i < f.buf.length := by
      refine lt_of_le_of_ne this.2.1 ?_
      intro heq
      exact hnd (heq ▸ this.1)
    refine ⟨?_, hlt⟩
    intro he
    have := this.2.2 he
    omega

/-- Witness of C10: a five-byte buffer on a stereo writer, after its first transfer. -/
theorem unaligned_write_never_completes_witness :
    ∃ s, exec (mock 4) (construct stereo 3 []) (unalignedRun ++ T 5) = some s ∧
      s.pc = Pc.loop Loc.head ⟨0, [1, 2, 3, 4, 5], 4⟩ ∧
      (∀ l f, s.pc = Pc.loop l f → ¬ bytesPerFrameOf stereo ∣ f.buf.length →
        bytesPerFrameOf stereo ∣ f.i ∧ f.i < f.buf.length) ∧
      (∀ f err, s.pc = Pc.ret f err → ¬ bytesPerFrameOf stereo ∣ f.buf.length →
        err ≠ none ∧ f.i < f.buf.length) := by
  refine ⟨_, rfl, rfl, ?_⟩
  exact unaligned_write_never_completes (mock 4) (Honest_mock 4) stereo 3 []
    (unalignedRun ++ T 5) _ rfl
end alsa
